import Mathlib

/-!
Verification of the feishu-markdown batch planner, upload coordinator,
transformer and retry utilities, as a shallow embedding of the TypeScript
source (packages/feishu-markdown/src and the FeishuMarkdown class).

Conventions of the embedding:
  - JavaScript arrays become Lean lists; pushing onto the end of the
    accumulator array and mutating its last element are rendered as
    consing onto a reversed accumulator and rewriting its head, with a
    final reverse.
  - External calls (network, filesystem, rendering, random ids) become
    explicit oracle parameters; a call that may throw returns an Option,
    none standing for the thrown exception.
  - The recursive method splitBatch has no terminating base case for
    ceiling 1, so it is embedded with explicit fuel; the value none means
    the fuel ran out on every budget, i.e. the recursion diverges.
-/

/-- A block record as consumed by the batch planner: the temporary id, the
numeric block_type, and the ordered ids of direct children.  Mirrors the
fields of DescendantBlock that uploadContent reads. -/
structure DescendantBlock where
  block_id : String
  block_type : Nat
  children : List String
deriving DecidableEq

/-- An upload unit: anchor id, directly attached blocks, and the descendants
travelling with them.  Mirrors interface UploadContentBatch. -/
structure UploadContentBatch where
  parentBlockId : String
  blocks : List DescendantBlock
  children : List DescendantBlock
deriving DecidableEq

/-- Total node count of a batch, the quantity the source computes as
batch.blocks.length + batch.children.length. -/
def batchCnt (b : UploadContentBatch) : Nat :=
  b.blocks.length + b.children.length

/-- One step of the unitize reduce in uploadContent (step 2.1): a block that
is referenced as somebody's child is appended to the children of the most
recently started batch (and silently dropped when no batch exists yet);
any other block starts a new batch anchored at the document root.  The
accumulator is kept reversed; most recent batch first. -/
def unitStep (blockChildren : List String) (documentId : String)
    (acc : List UploadContentBatch) (block : DescendantBlock) :
    List UploadContentBatch :=
  if blockChildren.contains block.block_id then
    match acc with
    | [] => []
    | last :: rest => { last with children := last.children ++ [block] } :: rest
  else
    { parentBlockId := documentId, blocks := [block], children := [] } :: acc

/-- Step 2.1 of uploadContent: cut the flat block list into one unit per
top-level block, each carrying all following child blocks. -/
def unitBatches (documentId : String) (blocks : List DescendantBlock) :
    List UploadContentBatch :=
  let blockChildren := blocks.flatMap DescendantBlock.children
  (blocks.foldl (unitStep blockChildren documentId) []).reverse

/-- One step of the children reduce inside splitBatch: a block that is a
direct child of the batch root starts a new sub-batch anchored at the root;
every other block is appended to the most recently started sub-batch
(dropped when none exists).  Accumulator reversed. -/
def splitChildStep (childIds : List String) (parentId : String)
    (acc : List UploadContentBatch) (block : DescendantBlock) :
    List UploadContentBatch :=
  if childIds.contains block.block_id then
    { parentBlockId := parentId, blocks := [block], children := [] } :: acc
  else
    match acc with
    | [] => []
    | last :: rest => { last with children := last.children ++ [block] } :: rest

/-- Concatenating flatMap for fallible functions: apply f to every element,
concatenate the results, and propagate the first none. -/
def flatMapM (f : α → Option (List β)) : List α → Option (List β)
  | [] => some []
  | a :: l => (f a).bind fun r => (flatMapM f l).map fun rs => r ++ rs

/-- The method FeishuMarkdown.splitBatch, with explicit fuel.  A batch whose
count is below the ceiling is returned unchanged; otherwise the (single)
top-level block becomes its own batch, the children are regrouped under the
root by direct-child membership, and splitting recurses over all parts.
none means the recursion exceeded the given budget. -/
def splitBatch : Nat → UploadContentBatch → Nat → Option (List UploadContentBatch)
  | 0, _, _ => none
  | fuel + 1, batch, maxd =>
    if batch.blocks.length + batch.children.length < maxd then
      some [batch]
    else
      match batch.blocks with
      | [] => some []
      | parentBlock :: _ =>
        let parentBatch : UploadContentBatch := { batch with children := [] }
        let childIds := parentBlock.children
        let childrenBatches :=
          (batch.children.foldl (splitChildStep childIds parentBlock.block_id) []).reverse
        flatMapM (fun b => splitBatch fuel b maxd) (parentBatch :: childrenBatches)

/-- FlatMap of splitBatch over a list of batches (the final flatMap of the
source, and step 2.2 of uploadContent applied to all units). -/
def splitBatchAll (fuel : Nat) (bs : List UploadContentBatch) (maxd : Nat) :
    Option (List UploadContentBatch) :=
  flatMapM (fun b => splitBatch fuel b maxd) bs

/-- One step of the merge reduce in uploadContent (step 2.3): a batch joins
the running batch only when the combined count stays at or below the
ceiling and both share the same anchor; otherwise it starts a new running
batch.  Accumulator reversed. -/
def mergeStep (maxd : Nat) (acc : List UploadContentBatch)
    (batch : UploadContentBatch) : List UploadContentBatch :=
  match acc with
  | [] => [batch]
  | lastBatch :: rest =>
    if batchCnt lastBatch + batchCnt batch ≤ maxd ∧
        lastBatch.parentBlockId = batch.parentBlockId then
      { lastBatch with
          blocks := lastBatch.blocks ++ batch.blocks,
          children := lastBatch.children ++ batch.children } :: rest
    else
      batch :: lastBatch :: rest

/-- Step 2.3 of uploadContent: merge undersized adjacent units. -/
def mergeBatches (maxd : Nat) (batches : List UploadContentBatch) :
    List UploadContentBatch :=
  (batches.foldl (mergeStep maxd) []).reverse

/-- Steps 2.1 to 2.3 of uploadContent: unitize, split oversized units,
merge undersized units.  Fuel feeds splitBatch. -/
def uploadContentPlan (fuel : Nat) (documentId : String)
    (blocks : List DescendantBlock) (maxd : Nat) :
    Option (List UploadContentBatch) :=
  (splitBatchAll fuel (unitBatches documentId blocks) maxd).map
    (mergeBatches maxd)

/-- A block forest as the walker produces it: every node carries its
temporary id, its block_type, and its subtrees. -/
inductive BlockTree where
  | node (block_id : String) (block_type : Nat) (kids : List BlockTree)

/-- Subtrees of the root. -/
def BlockTree.kids : BlockTree → List BlockTree
  | .node _ _ ks => ks

/-- Id of the root node. -/
def BlockTree.rootId : BlockTree → String
  | .node i _ _ => i

/-- The block record of the root node: its children field lists the root
ids of its subtrees, in order. -/
def BlockTree.rootBlk : BlockTree → DescendantBlock
  | .node i t ks => { block_id := i, block_type := t, children := ks.map BlockTree.rootId }

mutual

/-- Depth-first flattening of one tree: root first, then all descendants. -/
def flattenTree : BlockTree → List DescendantBlock
  | .node i t ks => BlockTree.rootBlk (.node i t ks) :: flattenForest ks

/-- Depth-first flattening of a forest, preserving sibling order. -/
def flattenForest : List BlockTree → List DescendantBlock
  | [] => []
  | t :: ts => flattenTree t ++ flattenForest ts

end

/-- The ids of a block list, in order. -/
def idsOf (l : List DescendantBlock) : List String :=
  l.map DescendantBlock.block_id

/-- All child ids referenced anywhere in a block list (the set the source
builds as blocks.flatMap(children)). -/
def childIdsOf (l : List DescendantBlock) : List String :=
  l.flatMap DescendantBlock.children

/-- The unit produced for one tree: anchored at the document, carrying the
root as its only top-level block and the whole depth-first tail. -/
def batchOfTree (anchor : String) (t : BlockTree) : UploadContentBatch :=
  { parentBlockId := anchor, blocks := [t.rootBlk], children := flattenForest t.kids }

/-- The batch holding just the root block of a tree, with no descendants:
what splitBatch keeps at the original anchor when it cuts a unit. -/
def rootOnlyBatch (anchor : String) (t : BlockTree) : UploadContentBatch :=
  { parentBlockId := anchor, blocks := [t.rootBlk], children := [] }

mutual

/-- The value splitBatch computes on a well-formed single-root unit, as a
total structural recursion: an undersized unit passes through; an oversized
one is cut into a singleton root unit followed by one recursively split
unit per direct child. -/
def canonicalSplit (maxd : Nat) (anchor : String) : BlockTree → List UploadContentBatch
  | .node i t ks =>
    if (flattenTree (.node i t ks)).length < maxd then
      [batchOfTree anchor (.node i t ks)]
    else
      { parentBlockId := anchor, blocks := [BlockTree.rootBlk (.node i t ks)],
        children := [] } :: canonicalSplitKids maxd i ks

/-- Concatenation of canonicalSplit over the subtrees. -/
def canonicalSplitKids (maxd : Nat) (anchor : String) : List BlockTree → List UploadContentBatch
  | [] => []
  | k :: ks => canonicalSplit maxd anchor k ++ canonicalSplitKids maxd anchor ks

end

/-- The multiset of blocks a batch carries: its top-level blocks together
with their descendants. -/
def batchMS (b : UploadContentBatch) : Multiset DescendantBlock :=
  (b.blocks ++ b.children : List DescendantBlock)

/-- The multiset of blocks carried by a whole plan. -/
def planMS (l : List UploadContentBatch) : Multiset DescendantBlock :=
  (l.map batchMS).sum

/-- Divergence of the planner: for every fuel budget the computation is
still unfinished.  This is how the embedding renders the stack overflow of
the source recursion. -/
def PlanDiverges (documentId : String) (blocks : List DescendantBlock)
    (maxd : Nat) : Prop :=
  ∀ fuel, uploadContentPlan fuel documentId blocks maxd = none

/-- The relation between a merge-pass output unit and the pass input: the
unit is the concatenation, in order, of a nonempty selection of input units
that all share its anchor. -/
def MergedFrom (input : List UploadContentBatch)
    (out : UploadContentBatch) : Prop :=
  ∃ sub : List UploadContentBatch, sub ≠ [] ∧ (∀ x ∈ sub, x ∈ input) ∧
    (∀ x ∈ sub, x.parentBlockId = out.parentBlockId) ∧
    out.blocks = sub.flatMap UploadContentBatch.blocks ∧
    out.children = sub.flatMap UploadContentBatch.children

/-- A small concrete walker forest used to instantiate the planner
theorems: one two-node tree and one singleton tree. -/
def demoForest : List BlockTree :=
  [.node "a" 2 [.node "b" 12 []], .node "c" 2 []]

/-! Data model of the upload coordinator (step 3 of uploadContent) and of
the image pipeline. -/

/-- The numeric block_type of Image blocks (BlockType.Image in the enum). -/
def BlockType.Image : Nat := 27

/-- An image source as parsed by parseImageSource: a remote url, a local
filesystem path, or in-memory bytes with a file name. -/
inductive ImageSource where
  | url (url : String)
  | path (path : String)
  | buffer (buffer : List Nat) (fileName : String)
deriving DecidableEq

/-- The entry stored in the imageBuffers table: a source plus an optional
suggested file name.  Mirrors interface ImageReference. -/
structure ImageReference where
  source : ImageSource
  fileName : Option String
deriving DecidableEq

/-- The value loadImage resolves to.  The source declares buffer and
fileName; the coordinator in the main class also probes a path field, so
both carriers are kept optional here exactly as the call sites read them. -/
structure PreparedImage where
  buffer : Option (List Nat)
  path : Option String
  fileName : String
deriving DecidableEq

/-- One entry of the batch update request sent for an image block: the
target block id and the replace_image token. -/
structure BatchUpdateBlockRequest where
  block_id : String
  replace_image_token : String
deriving DecidableEq

/-- First-match lookup in an association list, the behaviour of get on a
JavaScript Map whose keys are unique. -/
def lookupKey (l : List (String × α)) (k : String) : Option α :=
  (l.find? fun e => e.1 == k).map Prod.snd

/-- The IdMapping table: starting from the empty map, every response
relation (temporary_block_id, block_id) is recorded with Map.set, a later
set overriding an earlier one. -/
def buildIdMapping (relations : List (String × String)) : String → Option String :=
  relations.foldl
    (fun m rel => fun k => if k = rel.1 then some rel.2 else m k)
    (fun _ => none)

/-- The last binding of a key in a relation list: what repeated Map.set
leaves behind. -/
def lastLookup (k : String) : List (String × String) → Option String
  | [] => none
  | rel :: l =>
    match lastLookup k l with
    | some v => some v
    | none => if k = rel.1 then some rel.2 else none

/-- Basename of a slash-separated path, as node basename is used on image
paths. -/
def pathBasename (p : String) : String :=
  (p.splitOn "/").getLastD p

/-- One iteration of the image update loop in uploadContent (step 3),
returning the collected update request, or none when the iteration ends
with continue or with a caught upload error.  The uploadMedia oracle takes
the file name and the parent node (the real block id) and returns the file
token, none standing for a thrown error. -/
def uploadImageUpdate (idMapping : String → Option String)
    (imageBuffers : List (String × ImageReference))
    (uploadMedia : String → String → Option String)
    (block : DescendantBlock) : Option BatchUpdateBlockRequest :=
  if block.block_type ≠ BlockType.Image then none
  else
    match idMapping block.block_id with
    | none => none
    | some realBlockId =>
      match lookupKey imageBuffers block.block_id with
      | none => none
      | some prepared =>
        match prepared.source with
        | .buffer _ _ =>
          (uploadMedia (prepared.fileName.getD "image.png") realBlockId).map
            fun tok => ⟨realBlockId, tok⟩
        | .path p =>
          (uploadMedia (prepared.fileName.getD (pathBasename p)) realBlockId).map
            fun tok => ⟨realBlockId, tok⟩
        | .url _ => none

/-- Step 3 of uploadContent: walk the original blocks and collect one
update request per image block whose real id is known and whose media
upload succeeds; a missing mapping entry, a missing buffer entry, an
unresolved url source or a caught upload error skip just that block. -/
def collectImageUpdates (idMapping : String → Option String)
    (imageBuffers : List (String × ImageReference))
    (uploadMedia : String → String → Option String)
    (blocks : List DescendantBlock) : List BatchUpdateBlockRequest :=
  blocks.filterMap (uploadImageUpdate idMapping imageBuffers uploadMedia)

/-- The function loadImage of handlers/image.ts: a buffer source is
returned as is; a path source is read through the readFile oracle and
named by its basename; a url source fails when downloading is disabled and
otherwise goes through the download oracle, which returns bytes and the
derived file name.  none is a thrown UploadError. -/
def loadImage (readFileOracle : String → Option (List Nat))
    (downloadOracle : String → Option (List Nat × String))
    (source : ImageSource) (downloadEnabled : Bool) : Option PreparedImage :=
  match source with
  | .buffer buf fn => some ⟨some buf, none, fn⟩
  | .path p => (readFileOracle p).map fun buf => ⟨some buf, none, pathBasename p⟩
  | .url u =>
    if downloadEnabled then
      (downloadOracle u).map fun bf => ⟨some bf.1, none, bf.2⟩
    else none

/-- One iteration of FeishuMarkdown.processImages over an imageBuffers
entry: entries whose block is absent or not an Image pass through
untouched; a buffer source is normalized in place; other sources are
resolved through loadImage and the entry is rewritten to the prepared
data, or deleted (none) when loadImage throws. -/
def processImagesEntry (blocks : List DescendantBlock)
    (readFileOracle : String → Option (List Nat))
    (downloadOracle : String → Option (List Nat × String))
    (downloadImages : Option Bool)
    (e : String × ImageReference) : Option (String × ImageReference) :=
  match blocks.find? (fun b => b.block_id == e.1) with
  | none => some e
  | some block =>
    if block.block_type ≠ BlockType.Image then some e
    else
      match e.2.source with
      | .buffer buf fn => some (e.1, ⟨.buffer buf fn, some fn⟩)
      | src =>
        match loadImage readFileOracle downloadOracle src
            (downloadImages ≠ some false) with
        | none => none
        | some imageData =>
          match imageData.buffer with
          | some buf => some (e.1, ⟨.buffer buf imageData.fileName,
              some imageData.fileName⟩)
          | none =>
            match imageData.path with
            | some p => some (e.1, ⟨.path p, some imageData.fileName⟩)
            | none => some e

/-- FeishuMarkdown.processImages: iterate the imageBuffers entries in
order, resolving each one; a failed resolution deletes exactly that entry.
The blocks list is read but never written, which the pair result makes
explicit. -/
def processImages (blocks : List DescendantBlock)
    (readFileOracle : String → Option (List Nat))
    (downloadOracle : String → Option (List Nat × String))
    (downloadImages : Option Bool)
    (imageBuffers : List (String × ImageReference)) :
    List DescendantBlock × List (String × ImageReference) :=
  (blocks,
    imageBuffers.filterMap
      (processImagesEntry blocks readFileOracle downloadOracle downloadImages))

/-! Data model of the retry utility and the client retry options. -/

/-- The fields of APIError that the retry predicate and the delay
calculation read. -/
structure APIError where
  statusCode : Int
  feishuCode : Int
  headers : Option (List (String × String))
deriving DecidableEq

/-- APIError.isRateLimitError: Feishu code 99991400 or HTTP status 429. -/
def APIError.isRateLimitError (e : APIError) : Bool :=
  e.feishuCode == 99991400 || e.statusCode == 429

/-- An error reaching the retry loop: either an APIError or anything
else (the instanceof test of the source). -/
inductive ClientError where
  | api (e : APIError)
  | other
deriving DecidableEq

/-- The shouldRetry of FeishuClient.getRetryOptions: only a rate-limited
APIError is retried. -/
def clientShouldRetry : ClientError → Bool
  | .api e => e.isRateLimitError
  | .other => false

/-- JavaScript parseInt with radix 10 on the header value: skip leading
whitespace, optional sign, then the longest digit prefix; none when no
digit is found (NaN). -/
def parseIntDec (s : String) : Option Int :=
  let cs := s.toList.dropWhile Char.isWhitespace
  let signed : Bool × List Char :=
    match cs with
    | '-' :: rest => (true, rest)
    | '+' :: rest => (false, rest)
    | rest => (false, rest)
  let ds := signed.2.takeWhile Char.isDigit
  if ds.isEmpty then none
  else
    let n : Nat := ds.foldl (fun a c => a * 10 + (c.toNat - 48)) 0
    some (if signed.1 then -(n : Int) else (n : Int))

/-- The exponential backoff with jitter used when no server reset hint
applies: delay doubled each attempt, capped at 30000 ms, scaled by
0.75 + random * 0.5.  The random draw of each attempt is an oracle. -/
def clientDefaultDelay (retryDelay : Nat) (rand : Nat → ℚ) (attempt : Nat) : ℚ :=
  min ((retryDelay : ℚ) * 2 ^ attempt) 30000 * (3 / 4 + rand attempt * (1 / 2))

/-- The calculateDelay of FeishuClient.getRetryOptions: a rate-limited
APIError carrying a non-empty x-ogw-ratelimit-reset header that parses as
an integer waits exactly that many seconds in milliseconds; every other
case falls back to the jittered exponential backoff. -/
def clientCalculateDelay (retryDelay : Nat) (rand : Nat → ℚ) :
    ClientError → Nat → ℚ
  | .api e, attempt =>
    if e.isRateLimitError then
      match e.headers with
      | some hs =>
        match lookupKey hs "x-ogw-ratelimit-reset" with
        | some reset =>
          if reset ≠ "" then
            match parseIntDec reset with
            | some n => (n : ℚ) * 1000
            | none => clientDefaultDelay retryDelay rand attempt
          else clientDefaultDelay retryDelay rand attempt
        | none => clientDefaultDelay retryDelay rand attempt
      | none => clientDefaultDelay retryDelay rand attempt
    else clientDefaultDelay retryDelay rand attempt
  | .other, attempt => clientDefaultDelay retryDelay rand attempt

/-- The delay retryWithBackoff sleeps after a failed attempt: the
calculateDelay override when one is given, otherwise the built-in
exponential backoff with plus or minus 25 percent jitter. -/
def retryDelayMs {ε : Type} (baseDelay maxDelay : ℚ) (rand : Nat → ℚ)
    (calculateDelay : Option (ε → Nat → ℚ)) (e : ε) (attempt : Nat) : ℚ :=
  match calculateDelay with
  | some f => f e attempt
  | none => min (baseDelay * 2 ^ attempt) maxDelay * (3 / 4 + rand attempt * (1 / 2))

/-- The loop of retryWithBackoff: attempt counts up, left counts the
attempts still allowed after the current one.  The result carries the
outcome, the number of invocations of fn, and the delays slept between
attempts.  fn is indexed by the attempt number; an error outcome is a
thrown error. -/
def retryGo {ε α : Type} (fn : Nat → Except ε α) (shouldRetry : ε → Bool)
    (delayOf : ε → Nat → ℚ) : Nat → Nat → Except ε α × Nat × List ℚ
  | attempt, left =>
    match fn attempt with
    | .ok v => (.ok v, 1, [])
    | .error e =>
      match left with
      | 0 => (.error e, 1, [])
      | left + 1 =>
        if shouldRetry e then
          let r := retryGo fn shouldRetry delayOf (attempt + 1) left
          (r.1, r.2.1 + 1, delayOf e attempt :: r.2.2)
        else (.error e, 1, [])

/-- The function retryWithBackoff of utils/retry.ts. -/
def retryWithBackoff {ε α : Type} (fn : Nat → Except ε α) (retries : Nat)
    (baseDelay maxDelay : ℚ) (shouldRetry : ε → Bool)
    (calculateDelay : Option (ε → Nat → ℚ)) (rand : Nat → ℚ) :
    Except ε α × Nat × List ℚ :=
  retryGo fn shouldRetry (retryDelayMs baseDelay maxDelay rand calculateDelay)
    0 retries

/-- Concrete blocks for instantiating the coordinator theorems: a bullet
block and two image blocks, one of which gets no server relation. -/
def demoImageBlocks : List DescendantBlock :=
  [⟨"temp_bullet_1", 12, []⟩, ⟨"temp_image_1", 27, []⟩, ⟨"temp_image_2", 27, []⟩]

/-- Concrete response relations for the coordinator theorems. -/
def demoRelations : List (String × String) :=
  [("temp_bullet_1", "real_bullet_1"), ("temp_image_1", "real_image_1")]

/-- The same relations in the opposite order. -/
def demoRelationsRev : List (String × String) :=
  [("temp_image_1", "real_image_1"), ("temp_bullet_1", "real_bullet_1")]

/-- Concrete imageBuffers table for the coordinator theorems. -/
def demoBuffers : List (String × ImageReference) :=
  [("temp_image_1", ⟨.buffer [1] "img.png", some "img.png"⟩)]

/-- Concrete uploadMedia oracle: succeeds only for the real image id. -/
def demoUploadMedia : String → String → Option String :=
  fun _ realId => if realId == "real_image_1" then some "tok" else none

/-! Data model of the transformer: styled text runs, phrasing content and
the blocks the builders create. -/

/-- The style bag of a text run.  A flag the source leaves unset is
represented as false, and an absent link as none, exactly the
distinctions buildTextStyle makes. -/
structure TextElementStyle where
  bold : Bool
  italic : Bool
  strikethrough : Bool
  underline : Bool
  inline_code : Bool
  link : Option String
deriving DecidableEq

/-- One styled text run, as createTextElement builds it: the content and
the optional style bag of its text_run. -/
structure TextElement where
  content : String
  text_element_style : Option TextElementStyle
deriving DecidableEq

/-- The function createTextElement of the builders. -/
def createTextElement (content : String) (style : Option TextElementStyle) :
    TextElement :=
  ⟨content, style⟩

/-- The ambient style context threaded through extractTextElements.  Flags
the source leaves undefined are false. -/
structure StyleContext where
  bold : Bool
  italic : Bool
  strikethrough : Bool
  underline : Bool
  inlineCode : Bool
  link : Option String
deriving DecidableEq

/-- The empty ambient context extractTextElements starts from. -/
def emptyStyleContext : StyleContext := ⟨false, false, false, false, false, none⟩

/-- Truthiness of the link field: JavaScript treats an empty url string as
falsy in the if of buildTextStyle. -/
def styleLinkActive (ctx : StyleContext) : Bool :=
  match ctx.link with
  | some u => u != ""
  | none => false

/-- The function buildTextStyle: each active flag is copied into the style
bag, the link url is percent-encoded through the enc oracle (encodeURI),
and undefined is returned when nothing is set. -/
def buildTextStyle (enc : String → String) (ctx : StyleContext) :
    Option TextElementStyle :=
  if ctx.bold || ctx.italic || ctx.strikethrough || ctx.underline ||
      ctx.inlineCode || styleLinkActive ctx then
    some ⟨ctx.bold, ctx.italic, ctx.strikethrough, ctx.underline,
      ctx.inlineCode,
      if styleLinkActive ctx then ctx.link.map enc else none⟩
  else none

/-- Phrasing content nodes of the Markdown AST, as the switch of
extractTextElements distinguishes them.  The other constructor stands for
any unrecognized node carrying children, handled by the default case. -/
inductive PhrasingContent where
  | text (value : String)
  | strong (children : List PhrasingContent)
  | emphasis (children : List PhrasingContent)
  | delete (children : List PhrasingContent)
  | inlineCode (value : String)
  | link (url : String) (children : List PhrasingContent)
  | image (url : String) (alt : Option String)
  | lineBreak
  | other (children : List PhrasingContent)

mutual

/-- One case of the extractTextElements switch, for a single node under an
ambient context. -/
def extractOne (enc : String → String) :
    PhrasingContent → StyleContext → List TextElement
  | .text value, ctx => [createTextElement value (buildTextStyle enc ctx)]
  | .strong children, ctx =>
    extractTextElements enc children { ctx with bold := true }
  | .emphasis children, ctx =>
    extractTextElements enc children { ctx with italic := true }
  | .delete children, ctx =>
    extractTextElements enc children { ctx with strikethrough := true }
  | .inlineCode value, ctx =>
    [createTextElement value (buildTextStyle enc { ctx with inlineCode := true })]
  | .link url children, ctx =>
    extractTextElements enc children { ctx with link := some url }
  | .image _ alt, ctx =>
    [createTextElement (alt.getD "[image]") (buildTextStyle enc ctx)]
  | .lineBreak, ctx => [createTextElement "\n" (buildTextStyle enc ctx)]
  | .other children, ctx => extractTextElements enc children ctx

/-- The function extractTextElements: fold the phrasing nodes in order,
flattening every nested node into runs under the extended context. -/
def extractTextElements (enc : String → String) :
    List PhrasingContent → StyleContext → List TextElement
  | [], _ => []
  | node :: rest, styleContext =>
    extractOne enc node styleContext ++
      extractTextElements enc rest styleContext

end

/-- ASCII lowering of one character, the effect of toLowerCase on the
language names the map distinguishes. -/
def lowerChar (c : Char) : Char :=
  if 'A' ≤ c ∧ c ≤ 'Z' then Char.ofNat (c.toNat + 32) else c

/-- The JavaScript toLowerCase on ASCII language names. -/
def toLowerStr (s : String) : String :=
  String.mk (s.data.map lowerChar)

/-- The JavaScript trim: strip whitespace from both ends. -/
def trimStr (s : String) : String :=
  String.mk
    (((s.data.dropWhile Char.isWhitespace).reverse.dropWhile
      Char.isWhitespace).reverse)

/-- Numeric CodeLanguage values of the languages the map mentions, from
the enum in types/feishu.ts.  PlainText is 1. -/
def languageMap (lang : String) : Option Nat :=
  match lang with
  | "text" => some 1
  | "plaintext" => some 1
  | "plain" => some 1
  | "bash" => some 7
  | "shell" => some 60
  | "sh" => some 60
  | "zsh" => some 60
  | "c" => some 10
  | "cpp" => some 9
  | "c++" => some 9
  | "csharp" => some 8
  | "c#" => some 8
  | "cs" => some 8
  | "objectivec" => some 41
  | "objective-c" => some 41
  | "objc" => some 41
  | "javascript" => some 30
  | "js" => some 30
  | "typescript" => some 63
  | "ts" => some 63
  | "html" => some 24
  | "css" => some 12
  | "scss" => some 55
  | "sass" => some 55
  | "java" => some 29
  | "kotlin" => some 32
  | "kt" => some 32
  | "go" => some 22
  | "golang" => some 22
  | "rust" => some 53
  | "rs" => some 53
  | "python" => some 49
  | "py" => some 49
  | "ruby" => some 52
  | "rb" => some 52
  | "php" => some 43
  | "swift" => some 61
  | "scala" => some 57
  | "perl" => some 44
  | "lua" => some 36
  | "r" => some 50
  | "dart" => some 15
  | "julia" => some 31
  | "haskell" => some 27
  | "hs" => some 27
  | "erlang" => some 19
  | "erl" => some 19
  | "elixir" => some 19
  | "groovy" => some 23
  | "lisp" => some 34
  | "clojure" => some 34
  | "scheme" => some 58
  | "prolog" => some 47
  | "fortran" => some 20
  | "cobol" => some 11
  | "assembly" => some 6
  | "asm" => some 6
  | "json" => some 28
  | "xml" => some 66
  | "yaml" => some 67
  | "yml" => some 67
  | "toml" => some 75
  | "ini" => some 73
  | "properties" => some 73
  | "markdown" => some 39
  | "md" => some 39
  | "latex" => some 33
  | "tex" => some 33
  | "sql" => some 56
  | "dockerfile" => some 18
  | "docker" => some 18
  | "makefile" => some 38
  | "make" => some 38
  | "cmake" => some 68
  | "nginx" => some 40
  | "apache" => some 4
  | "graphql" => some 71
  | "gql" => some 71
  | "protobuf" => some 48
  | "proto" => some 48
  | "thrift" => some 62
  | "powershell" => some 46
  | "ps1" => some 46
  | "vbscript" => some 64
  | "vb" => some 64
  | "coffeescript" => some 13
  | "coffee" => some 13
  | "diff" => some 69
  | "patch" => some 69
  | "http" => some 26
  | "matlab" => some 37
  | "solidity" => some 74
  | "sol" => some 74
  | "glsl" => some 72
  | "shader" => some 72
  | _ => none

/-- The function mapCodeLanguage: a missing or empty language is
PlainText; otherwise the lowercased, trimmed name is looked up in the
map, defaulting to PlainText. -/
def mapCodeLanguage (lang : Option String) : Nat :=
  match lang with
  | none => 1
  | some l => if l = "" then 1 else (languageMap (trimStr (toLowerStr l))).getD 1

/-- The function isMermaidLanguage. -/
def isMermaidLanguage (lang : Option String) : Bool :=
  match lang with
  | none => false
  | some l => if l = "" then false else trimStr (toLowerStr l) == "mermaid"

/-- Variant payload of a transformed block, carrying what the builder of
each block kind records. -/
inductive BlockPayload where
  | text (elements : List TextElement)
  | heading (level : Nat) (elements : List TextElement)
  | bullet (elements : List TextElement)
  | ordered (elements : List TextElement)
  | todo (elements : List TextElement) (done : Bool)
  | code (elements : List TextElement) (language : Nat) (wrap : Bool)
  | quoteContainer
  | divider
  | image
  | table (rowSize : Nat) (columnSize : Nat)
  | tableCell
deriving DecidableEq

/-- A block as the transformer emits it: id, numeric block_type, payload
and ordered child ids. -/
structure TBlock where
  block_id : String
  block_type : Nat
  payload : BlockPayload
  children : List String
deriving DecidableEq

/-- The builder createTextBlock: empty element lists are replaced by one
empty run because the API rejects empty element lists. -/
def createTextBlock (elements : List TextElement) (blockId : String) : TBlock :=
  ⟨blockId, 2,
    .text (if elements.isEmpty then [createTextElement "" none] else elements),
    []⟩

/-- Block type of a heading of the given level, from the blockTypeMap of
createHeadingBlock (levels 1 to 9 map to 3 to 11, anything else to
Heading6). -/
def headingBlockType (level : Nat) : Nat :=
  if 1 ≤ level ∧ level ≤ 9 then level + 2 else 8

/-- The builder createHeadingBlock. -/
def createHeadingBlock (level : Nat) (elements : List TextElement)
    (blockId : String) : TBlock :=
  ⟨blockId, headingBlockType level, .heading level elements, []⟩

/-- The builder createBulletBlock. -/
def createBulletBlock (elements : List TextElement) (blockId : String) : TBlock :=
  ⟨blockId, 12, .bullet elements, []⟩

/-- The builder createOrderedBlock. -/
def createOrderedBlock (elements : List TextElement) (blockId : String) : TBlock :=
  ⟨blockId, 13, .ordered elements, []⟩

/-- The builder createTodoBlock. -/
def createTodoBlock (elements : List TextElement) (done : Bool)
    (blockId : String) : TBlock :=
  ⟨blockId, 17, .todo elements done, []⟩

/-- The builder createCodeBlock: a single unstyled run holding the code
and the language, with wrap false. -/
def createCodeBlock (code : String) (language : Nat) (blockId : String) : TBlock :=
  ⟨blockId, 14, .code [createTextElement code none] language false, []⟩

/-- The builder createQuoteContainerBlock. -/
def createQuoteContainerBlock (blockId : String) : TBlock :=
  ⟨blockId, 34, .quoteContainer, []⟩

/-- The builder createDividerBlock. -/
def createDividerBlock (blockId : String) : TBlock :=
  ⟨blockId, 22, .divider, []⟩

/-- The builder createImageBlock, as the transformer calls it (no token,
width or height yet). -/
def createImageBlock (blockId : String) : TBlock :=
  ⟨blockId, 27, .image, []⟩

/-- The builder createTableBlock: the cell ids become the children. -/
def createTableBlock (rowSize columnSize : Nat) (cellBlockIds : List String)
    (blockId : String) : TBlock :=
  ⟨blockId, 31, .table rowSize columnSize, cellBlockIds⟩

/-- The builder createTableCellBlock. -/
def createTableCellBlock (blockId : String) : TBlock :=
  ⟨blockId, 32, .tableCell, []⟩

mutual

/-- Markdown AST nodes as the nodeHandlers table distinguishes them.  The
unknown constructor stands for a node type without a handler, which only
logs a warning. -/
inductive MdNode where
  | paragraph (children : List PhrasingContent)
  | heading (depth : Nat) (children : List PhrasingContent)
  | list (ordered : Option Bool) (items : List MdListItem)
  | listItem (item : MdListItem)
  | code (lang : Option String) (value : String)
  | blockquote (children : List MdNode)
  | thematicBreak
  | table (rows : List (List (List PhrasingContent)))
  | image (url : String) (alt : Option String)
  | html (value : String)
  | unknown

inductive MdListItem where
  | mk (checked : Option Bool) (children : List MdNode)

end

/-- The external collaborators and options of one transform run: the id
generator behind generateBlockId, encodeURI, the Mermaid renderer (bytes
and file name on success, none on a thrown render error), parseImageSource
with the configured base directory baked in, and whether diagram rendering
is enabled (options.mermaid.enabled not explicitly false). -/
structure TransformOracles where
  fresh : Nat → String
  enc : String → String
  render : String → Option (List Nat × String)
  parseSrc : String → ImageSource
  mermaidEnabled : Bool

/-- The mutable transform context: emitted blocks in order, the root-level
block ids, the imageBuffers side table, and the id counter driving the
fresh oracle. -/
structure TransformContext where
  blocks : List TBlock
  rootChildrenIds : List String
  imageBuffers : List (String × ImageReference)
  ctr : Nat
deriving DecidableEq

/-- The initial empty context. -/
def initialContext : TransformContext := ⟨[], [], [], 0⟩

/-- Draw a fresh temporary block id (generateBlockId). -/
def genId (O : TransformOracles) (st : TransformContext) :
    String × TransformContext :=
  (O.fresh st.ctr, { st with ctr := st.ctr + 1 })

/-- Append a child id to the children of the first block carrying the
parent id, as addBlock does through find and push. -/
def pushChildToParent (pid cid : String) : List TBlock → List TBlock
  | [] => []
  | b :: bs =>
    if b.block_id == pid then
      { b with children := b.children ++ [cid] } :: bs
    else
      b :: pushChildToParent pid cid bs

/-- The function addBlock of the transformer: append the block; a null
parent records a root child id, otherwise the parent block (looked up by
id) gains the new id as its last child. -/
def addBlock (blk : TBlock) (parentBlockId : Option String)
    (st : TransformContext) : TransformContext :=
  let st2 := { st with blocks := st.blocks ++ [blk] }
  match parentBlockId with
  | none => { st2 with rootChildrenIds := st2.rootChildrenIds ++ [blk.block_id] }
  | some pid => { st2 with blocks := pushChildToParent pid blk.block_id st2.blocks }

/-- The handler handleImage: an Image block plus an imageBuffers entry
derived from the url and alt text. -/
def handleImage (O : TransformOracles) (url : String) (alt : Option String)
    (parentBlockId : Option String) (st : TransformContext) : TransformContext :=
  let p := genId O st
  let st2 := addBlock (createImageBlock p.1) parentBlockId p.2
  let fileName := alt.getD ((url.splitOn "/").getLastD "image.png")
  { st2 with imageBuffers :=
      st2.imageBuffers ++ [(p.1, ⟨O.parseSrc url, some fileName⟩)] }

/-- The conservative per-table cell ceiling of handleTable. -/
def MAX_CELLS_PER_TABLE : Nat := 20

/-- Slicing loop of handleTable with an explicit index budget; the budget
is the list length, which suffices for any chunk size of at least 1. -/
def chunkGo (n : Nat) : Nat → List α → List (List α)
  | _, [] => []
  | 0, _ :: _ => []
  | fuel + 1, x :: xs => (x :: xs).take n :: chunkGo n fuel ((x :: xs).drop n)

/-- The slice loop for i from 0 step chunkSize of handleTable. -/
def chunkList (n : Nat) (l : List α) : List (List α) :=
  chunkGo n l.length l

/-- The per-cell loop of one handleTable chunk, run over the cells of the
chunk rows in row-major order: for every cell a cell id, a TableCell block
holding one content child, and a Text content block. -/
def tableCellsGo (O : TransformOracles) :
    List (List PhrasingContent) → TransformContext →
    List String × List TBlock × List TBlock × TransformContext
  | [], st => ([], [], [], st)
  | cell :: cells, st =>
    let p1 := genId O st
    let elements := extractTextElements O.enc cell emptyStyleContext
    let p2 := genId O p1.2
    let contentBlock := createTextBlock elements p2.1
    let cellBlock := { createTableCellBlock p1.1 with children := [p2.1] }
    let rest := tableCellsGo O cells p2.2
    (p1.1 :: rest.1, cellBlock :: rest.2.1, contentBlock :: rest.2.2.1,
      rest.2.2.2)

/-- One iteration of the chunk loop of handleTable: build the cell and
content blocks, create the Table block carrying the cell ids, attach it
under the parent, then append the cell blocks and the content blocks. -/
def handleTableChunk (O : TransformOracles) (parentBlockId : Option String)
    (columnSize : Nat) (rows : List (List (List PhrasingContent)))
    (st : TransformContext) : TransformContext :=
  let built := tableCellsGo O rows.flatten st
  let p := genId O built.2.2.2
  let tableBlock := createTableBlock rows.length columnSize built.1 p.1
  let st3 := addBlock tableBlock parentBlockId p.2
  { st3 with blocks := st3.blocks ++ built.2.1 ++ built.2.2.1 }

/-- The handler handleTable of the transformer (the chunked version):
empty tables and zero-column tables emit nothing; otherwise the rows are
cut into chunks of at most max(20 / columnSize, 1) rows, and every chunk
becomes one sibling Table block with its cells. -/
def handleTable (O : TransformOracles) (parentBlockId : Option String)
    (allRows : List (List (List PhrasingContent)))
    (st : TransformContext) : TransformContext :=
  match allRows with
  | [] => st
  | r0 :: _ =>
    if r0.length = 0 then st
    else
      let chunkSize := max (MAX_CELLS_PER_TABLE / r0.length) 1
      (chunkList chunkSize allRows).foldl
        (fun st rows => handleTableChunk O parentBlockId r0.length rows st) st

/-- The first-paragraph scan of handleTaskListItem. -/
def firstParagraph : List MdNode → Option (List PhrasingContent)
  | [] => none
  | .paragraph ph :: _ => some ph
  | _ :: rest => firstParagraph rest

/-- The element-collecting half of the handleListItem loop: the first
paragraph whose extraction is nonempty supplies the item text; everything
else leaves the accumulator alone. -/
def listItemText (O : TransformOracles) :
    List MdNode → List TextElement → List TextElement
  | [], elements => elements
  | c :: rest, elements =>
    match c with
    | .paragraph ph =>
      if elements.isEmpty then
        listItemText O rest (extractTextElements O.enc ph emptyStyleContext)
      else listItemText O rest elements
    | _ => listItemText O rest elements

mutual

/-- The dispatcher visitNode with the nodeHandlers of the transformer.
Every handler is total: a Mermaid render failure falls back to a Code
block, unknown nodes only warn. -/
def visitNode (O : TransformOracles) :
    MdNode → Option String → TransformContext → TransformContext
  | .paragraph children, parentBlockId, st =>
    match children with
    | [.image url alt] => handleImage O url alt parentBlockId st
    | _ =>
      let elements := extractTextElements O.enc children emptyStyleContext
      if elements.isEmpty then st
      else
        let p := genId O st
        addBlock (createTextBlock elements p.1) parentBlockId p.2
  | .heading depth children, parentBlockId, st =>
    let elements := extractTextElements O.enc children emptyStyleContext
    let level := min (max depth 1) 9
    let p := genId O st
    addBlock (createHeadingBlock level elements p.1) parentBlockId p.2
  | .list ordered items, parentBlockId, st =>
    handleListItems O items parentBlockId (ordered.getD false) st
  | .listItem item, parentBlockId, st =>
    handleListItem O item parentBlockId false st
  | .code lang value, parentBlockId, st =>
    if isMermaidLanguage lang && O.mermaidEnabled then
      match O.render value with
      | some bf =>
        let p := genId O st
        let st2 := addBlock (createImageBlock p.1) parentBlockId p.2
        { st2 with imageBuffers :=
            st2.imageBuffers ++ [(p.1, ⟨.buffer bf.1 bf.2, some bf.2⟩)] }
      | none =>
        let p := genId O st
        addBlock (createCodeBlock value (mapCodeLanguage (some "mermaid")) p.1)
          parentBlockId p.2
    else
      let p := genId O st
      addBlock (createCodeBlock value (mapCodeLanguage lang) p.1)
        parentBlockId p.2
  | .blockquote children, parentBlockId, st =>
    let p := genId O st
    let st2 := addBlock (createQuoteContainerBlock p.1) parentBlockId p.2
    visitNodes O children (some p.1) st2
  | .thematicBreak, parentBlockId, st =>
    let p := genId O st
    addBlock (createDividerBlock p.1) parentBlockId p.2
  | .table rows, parentBlockId, st => handleTable O parentBlockId rows st
  | .image url alt, parentBlockId, st => handleImage O url alt parentBlockId st
  | .html value, parentBlockId, st =>
    let p := genId O st
    addBlock (createTextBlock [createTextElement value none] p.1)
      parentBlockId p.2
  | .unknown, _, st => st

/-- Sequential visit of sibling nodes. -/
def visitNodes (O : TransformOracles) :
    List MdNode → Option String → TransformContext → TransformContext
  | [], _, st => st
  | n :: ns, parentBlockId, st =>
    visitNodes O ns parentBlockId (visitNode O n parentBlockId st)

/-- The loop of handleList over its items. -/
def handleListItems (O : TransformOracles) :
    List MdListItem → Option String → Bool → TransformContext → TransformContext
  | [], _, _, st => st
  | it :: its, parentBlockId, ordered, st =>
    handleListItems O its parentBlockId ordered
      (handleListItem O it parentBlockId ordered st)

/-- The nested-content half of the handleListItem loop: visit, in order
and under the item block, exactly the children the source pushes into
childrenToProcess — nested lists always, paragraphs except the one
consumed as the item text. -/
def visitListItemChildren (O : TransformOracles) :
    List MdNode → Option String → List TextElement → TransformContext →
    TransformContext
  | [], _, _, st => st
  | c :: rest, parentBlockId, elements, st =>
    match c with
    | .paragraph ph =>
      if elements.isEmpty then
        visitListItemChildren O rest parentBlockId
          (extractTextElements O.enc ph emptyStyleContext) st
      else
        visitListItemChildren O rest parentBlockId elements
          (visitNode O (.paragraph ph) parentBlockId st)
    | .list ordered items =>
      visitListItemChildren O rest parentBlockId elements
        (visitNode O (.list ordered items) parentBlockId st)
    | _ => visitListItemChildren O rest parentBlockId elements st

/-- The handler handleListItem: a checked state makes a Todo block from
the first paragraph; otherwise the first nonempty paragraph supplies the
text of a Bullet or Ordered block, and the remaining paragraphs and nested
lists are visited under the new block. -/
def handleListItem (O : TransformOracles) :
    MdListItem → Option String → Bool → TransformContext → TransformContext
  | .mk checked children, parentBlockId, ordered, st =>
    match checked with
    | some done =>
      let elements0 :=
        match firstParagraph children with
        | some ph => extractTextElements O.enc ph emptyStyleContext
        | none => []
      let elements :=
        if elements0.isEmpty then [createTextElement "" none] else elements0
      let p := genId O st
      addBlock (createTodoBlock elements done p.1) parentBlockId p.2
    | none =>
      let elements0 := listItemText O children []
      let elements :=
        if elements0.isEmpty then [createTextElement "" none] else elements0
      let p := genId O st
      let block :=
        if ordered then createOrderedBlock elements p.1
        else createBulletBlock elements p.1
      let st2 := addBlock block parentBlockId p.2
      visitListItemChildren O children (some p.1) [] st2

end

/-- The function transformMarkdownToBlocks: visit every top-level node of
the AST with a null parent, starting from the empty context. -/
def transformMarkdownToBlocks (O : TransformOracles) (ast : List MdNode) :
    TransformContext :=
  visitNodes O ast none initialContext

/-- The (row_size, column_size) payloads of the Table blocks of a block
list, in order. -/
def tableSpecsOf (blocks : List TBlock) : List (Nat × Nat) :=
  blocks.filterMap fun b =>
    match b.payload with
    | .table r c => some (r, c)
    | _ => none

/-- Concrete oracles for instantiating transformer theorems. -/
def demoOracles : TransformOracles :=
  ⟨fun n => "temp_" ++ toString n, fun s => s, fun _ => none,
    fun u => .url u, true⟩

/-- Extension order on ambient style contexts: every boolean flag on in
the first is on in the second.  The styles of flattened runs extend their
ambient context this way. -/
def ctxExtends (c c2 : StyleContext) : Prop :=
  (c.bold = true → c2.bold = true) ∧ (c.italic = true → c2.italic = true) ∧
  (c.strikethrough = true → c2.strikethrough = true) ∧
  (c.underline = true → c2.underline = true) ∧
  (c.inlineCode = true → c2.inlineCode = true)

/-- The style flags a produced run effectively carries, read back as a
context: a run with no style bag carries no flags. -/
def elemStyleCtx (e : TextElement) : StyleContext :=
  match e.text_element_style with
  | some s => ⟨s.bold, s.italic, s.strikethrough, s.underline,
      s.inline_code, s.link⟩
  | none => emptyStyleContext

/-- Every child id of a block appears among the ids of strictly later
blocks of the array: the ordering addBlock and handleTable establish and
splitBatch depends on. -/
def ChildrenLater : List TBlock → Prop
  | [] => True
  | b :: bs =>
    (∀ cid ∈ b.children, cid ∈ bs.map TBlock.block_id) ∧ ChildrenLater bs

/-- Every id of the list was produced by the id oracle at a counter value
below m. -/
def FreshBelow (O : TransformOracles) (m : Nat) (ids : List String) : Prop :=
  ∀ id ∈ ids, ∃ k, k < m ∧ id = O.fresh k

/-- The transformer state invariant: all block ids come from the id
oracle below the current counter, the ids are distinct, and children
always point at strictly later blocks. -/
def TransformInv (O : TransformOracles) (st : TransformContext) : Prop :=
  FreshBelow O st.ctr (st.blocks.map TBlock.block_id) ∧
  (st.blocks.map TBlock.block_id).Nodup ∧
  ChildrenLater st.blocks

/-- A parent id handed to a handler was produced by the id oracle at an
earlier counter value. -/
def ParentOk (O : TransformOracles) (parent : Option String) (ctr : Nat) :
    Prop :=
  ∀ pid, parent = some pid → ∃ k, k < ctr ∧ pid = O.fresh k

/-- The id sequence tableCellsGo consumes: two fresh ids per cell, in
counter order. -/
def cellIdsSeq (O : TransformOracles) :
    List (List PhrasingContent) → Nat → List String
  | [], _ => []
  | _ :: cells, c => O.fresh c :: O.fresh (c + 1) :: cellIdsSeq O cells (c + 2)

/-- Closed form of the lists tableCellsGo builds from a starting counter:
cell ids, TableCell blocks and Text content blocks, two fresh ids per
cell. -/
def tableCellsSpec (O : TransformOracles) :
    List (List PhrasingContent) → Nat →
    List String × List TBlock × List TBlock
  | [], _ => ([], [], [])
  | cell :: cells, c =>
    let rest := tableCellsSpec O cells (c + 2)
    (O.fresh c :: rest.1,
     { createTableCellBlock (O.fresh c) with
        children := [O.fresh (c + 1)] } :: rest.2.1,
     createTextBlock (extractTextElements O.enc cell emptyStyleContext)
        (O.fresh (c + 1)) :: rest.2.2)

/-- Oracles with a provably injective, never-empty id generator, standing
for nanoid. -/
def demoFreshOracles : TransformOracles :=
  ⟨fun n => String.mk (List.replicate (n + 1) 'a'), fun s => s, fun _ => none,
    fun u => ImageSource.url u, true⟩

/-- A small AST exercising root blocks and a nested parent. -/
def demoAst : List MdNode :=
  [.paragraph [.text "hi"], .blockquote [.paragraph [.text "q"]]]

/-! Helper lemmas about list membership tests with the Bool contains. -/

theorem contains_iff_mem {l : List String} {a : String} :
    l.contains a = true ↔ a ∈ l :=
  List.elem_iff

theorem contains_eq_false_of_not_mem {l : List String} {a : String}
    (h : a ∉ l) : l.contains a = false := by
  by_contra hc
  exact h (contains_iff_mem.mp (by revert hc; cases l.contains a <;> simp))

theorem not_mem_of_contains_eq_false {l : List String} {a : String}
    (h : l.contains a = false) : a ∉ l := fun hm => by
  rw [contains_iff_mem.mpr hm] at h
  cases h

/-! Structure of depth-first flattening. -/

theorem flattenForest_cons (t : BlockTree) (ts : List BlockTree) :
    flattenForest (t :: ts) = flattenTree t ++ flattenForest ts := rfl

theorem flattenTree_node (i : String) (ty : Nat) (ks : List BlockTree) :
    flattenTree (.node i ty ks) =
      BlockTree.rootBlk (.node i ty ks) :: flattenForest ks := rfl

theorem flattenTree_length_pos (t : BlockTree) : 0 < (flattenTree t).length := by
  obtain ⟨i, ty, ks⟩ := t
  simp [flattenTree_node]

theorem idsOf_flattenTree (i : String) (ty : Nat) (ks : List BlockTree) :
    idsOf (flattenTree (.node i ty ks)) = i :: idsOf (flattenForest ks) := by
  simp [idsOf, flattenTree_node, BlockTree.rootBlk]

theorem flattenTree_sublist {t : BlockTree} {ts : List BlockTree} (h : t ∈ ts) :
    (flattenTree t).Sublist (flattenForest ts) := by
  induction ts with
  | nil => cases h
  | cons s ts ih =>
    rw [flattenForest_cons]
    rcases List.mem_cons.mp h with h | h
    · subst h; exact List.sublist_append_left _ _
    · exact (ih h).trans (List.sublist_append_right _ _)

theorem nodup_forest_tree {t : BlockTree} {ts : List BlockTree}
    (hnd : (idsOf (flattenForest ts)).Nodup) (h : t ∈ ts) :
    (idsOf (flattenTree t)).Nodup :=
  hnd.sublist ((flattenTree_sublist h).map _)

theorem nodup_tree_kids {i : String} {ty : Nat} {ks : List BlockTree}
    (hnd : (idsOf (flattenTree (.node i ty ks))).Nodup) :
    (idsOf (flattenForest ks)).Nodup := by
  rw [idsOf_flattenTree] at hnd
  exact (List.nodup_cons.mp hnd).2

/-! Permutation bookkeeping: in a depth-first flattening the ids referenced
as children are exactly the ids of the non-root nodes, counted with
multiplicity. -/

theorem idsOf_append (l1 l2 : List DescendantBlock) :
    idsOf (l1 ++ l2) = idsOf l1 ++ idsOf l2 :=
  List.map_append _ _ _

theorem childIdsOf_append (l1 l2 : List DescendantBlock) :
    childIdsOf (l1 ++ l2) = childIdsOf l1 ++ childIdsOf l2 :=
  List.flatMap_append _ _ _

theorem idsOf_forest_split : ∀ ts : List BlockTree,
    (idsOf (flattenForest ts)).Perm
      (ts.map BlockTree.rootId ++ ts.flatMap fun t => idsOf (flattenForest t.kids))
  | [] => by simp [flattenForest, idsOf]
  | t :: ts => by
    obtain ⟨i, ty, ks⟩ := t
    have ih := idsOf_forest_split ts
    rw [flattenForest_cons, idsOf_append, idsOf_flattenTree]
    simp only [List.map_cons, List.flatMap_cons, BlockTree.rootId,
      BlockTree.kids, List.cons_append]
    refine List.Perm.cons i ?_
    refine (ih.append_left (idsOf (flattenForest ks))).trans ?_
    rw [← List.append_assoc, ← List.append_assoc]
    exact List.perm_append_comm.append_right _

mutual

theorem childIds_flattenTree : ∀ t : BlockTree,
    (childIdsOf (flattenTree t)).Perm (idsOf (flattenForest t.kids))
  | .node i ty ks => by
    have hF := childIds_flattenForest ks
    show ((BlockTree.rootBlk (.node i ty ks)).children ++
        childIdsOf (flattenForest ks)).Perm _
    simp only [BlockTree.rootBlk, BlockTree.kids]
    refine (hF.append_left (ks.map BlockTree.rootId)).trans ?_
    exact (idsOf_forest_split ks).symm

theorem childIds_flattenForest : ∀ ts : List BlockTree,
    (childIdsOf (flattenForest ts)).Perm
      (ts.flatMap fun t => idsOf (flattenForest t.kids))
  | [] => by simp [flattenForest, childIdsOf]
  | t :: ts => by
    have hT := childIds_flattenTree t
    have hF := childIds_flattenForest ts
    rw [flattenForest_cons, childIdsOf_append, List.flatMap_cons]
    exact hT.append hF

end

theorem mem_childIds_of_tail {ts : List BlockTree} {t : BlockTree}
    (ht : t ∈ ts) {x : DescendantBlock} (hx : x ∈ flattenForest t.kids) :
    x.block_id ∈ childIdsOf (flattenForest ts) := by
  have h1 : x.block_id ∈ idsOf (flattenForest t.kids) :=
    List.mem_map_of_mem _ hx
  have h2 : x.block_id ∈ childIdsOf (flattenTree t) :=
    (childIds_flattenTree t).mem_iff.mpr h1
  obtain ⟨b, hb, hbc⟩ := List.mem_flatMap.mp h2
  exact List.mem_flatMap.mpr ⟨b, (flattenTree_sublist ht).subset hb, hbc⟩

theorem roots_tails_disjoint {ts : List BlockTree}
    (hnd : (idsOf (flattenForest ts)).Nodup) :
    (ts.map BlockTree.rootId).Disjoint
      (ts.flatMap fun t => idsOf (flattenForest t.kids)) :=
  (List.nodup_append.mp ((idsOf_forest_split ts).nodup hnd)).2.2

theorem root_not_mem_childIds {ts : List BlockTree} {t : BlockTree}
    (hnd : (idsOf (flattenForest ts)).Nodup) (ht : t ∈ ts) :
    t.rootId ∉ childIdsOf (flattenForest ts) := by
  intro hmem
  have h1 : t.rootId ∈ ts.flatMap fun t => idsOf (flattenForest t.kids) :=
    (childIds_flattenForest ts).mem_iff.mp hmem
  exact roots_tails_disjoint hnd (List.mem_map_of_mem _ ht) h1

theorem tail_not_mem_roots {ks : List BlockTree} {k : BlockTree}
    {x : DescendantBlock} (hnd : (idsOf (flattenForest ks)).Nodup)
    (hk : k ∈ ks) (hx : x ∈ flattenForest k.kids) :
    x.block_id ∉ ks.map BlockTree.rootId := by
  intro hmem
  exact roots_tails_disjoint hnd hmem
    (List.mem_flatMap.mpr ⟨k, hk, List.mem_map_of_mem _ hx⟩)

/-! Characterization of the accumulator folds: a run of non-starting blocks
is appended, in order, to the children of the most recently started batch. -/

theorem unitStep_run (CH : List String) (doc : String) :
    ∀ (run : List DescendantBlock),
      (∀ x ∈ run, CH.contains x.block_id = true) →
      ∀ (last : UploadContentBatch) (rest : List UploadContentBatch),
        run.foldl (unitStep CH doc) (last :: rest) =
          { last with children := last.children ++ run } :: rest
  | [], _, last, rest => by simp
  | x :: run, h, last, rest => by
    have hx : CH.contains x.block_id = true := h x (List.mem_cons_self x run)
    have ih := unitStep_run CH doc run
      (fun y hy => h y (List.mem_cons_of_mem x hy))
      { last with children := last.children ++ [x] } rest
    show List.foldl _ (unitStep CH doc (last :: rest) x) run = _
    rw [show unitStep CH doc (last :: rest) x =
      { last with children := last.children ++ [x] } :: rest from by
        simp [unitStep, contains_iff_mem.mp hx]]
    rw [ih]
    simp

theorem splitChildStep_run (CH : List String) (pid : String) :
    ∀ (run : List DescendantBlock),
      (∀ x ∈ run, CH.contains x.block_id = false) →
      ∀ (last : UploadContentBatch) (rest : List UploadContentBatch),
        run.foldl (splitChildStep CH pid) (last :: rest) =
          { last with children := last.children ++ run } :: rest
  | [], _, last, rest => by simp
  | x :: run, h, last, rest => by
    have hx : CH.contains x.block_id = false := h x (List.mem_cons_self x run)
    have ih := splitChildStep_run CH pid run
      (fun y hy => h y (List.mem_cons_of_mem x hy))
      { last with children := last.children ++ [x] } rest
    show List.foldl _ (splitChildStep CH pid (last :: rest) x) run = _
    rw [show splitChildStep CH pid (last :: rest) x =
      { last with children := last.children ++ [x] } :: rest from by
        simp [splitChildStep, not_mem_of_contains_eq_false hx]]
    rw [ih]
    simp

theorem unit_foldl_forest (CH : List String) (doc : String) :
    ∀ (ts : List BlockTree),
      (∀ t ∈ ts, CH.contains t.rootId = false) →
      (∀ t ∈ ts, ∀ x ∈ flattenForest t.kids, CH.contains x.block_id = true) →
      ∀ acc, (flattenForest ts).foldl (unitStep CH doc) acc =
        (ts.map (batchOfTree doc)).reverse ++ acc
  | [], _, _, acc => by simp [flattenForest]
  | t :: ts, hroot, htail, acc => by
    obtain ⟨i, ty, ks⟩ := t
    have hr := hroot _ (List.mem_cons_self _ _)
    have ht := htail _ (List.mem_cons_self _ _)
    have ih := unit_foldl_forest CH doc ts
      (fun s hs => hroot s (List.mem_cons_of_mem _ hs))
      (fun s hs => htail s (List.mem_cons_of_mem _ hs))
    rw [flattenForest_cons, List.foldl_append, flattenTree_node, List.foldl_cons]
    rw [show unitStep CH doc acc (BlockTree.rootBlk (.node i ty ks)) =
      ({ parentBlockId := doc, blocks := [BlockTree.rootBlk (.node i ty ks)],
         children := [] } : UploadContentBatch) :: acc from by
        simp only [BlockTree.rootId] at hr
        simp [unitStep, BlockTree.rootBlk, not_mem_of_contains_eq_false hr]]
    rw [unitStep_run CH doc (flattenForest ks) (by simpa [BlockTree.kids] using ht)]
    rw [ih]
    simp [batchOfTree, BlockTree.kids, BlockTree.rootBlk]

theorem split_foldl_forest (CH : List String) (pid : String) :
    ∀ (ks : List BlockTree),
      (∀ k ∈ ks, CH.contains k.rootId = true) →
      (∀ k ∈ ks, ∀ x ∈ flattenForest k.kids, CH.contains x.block_id = false) →
      ∀ acc, (flattenForest ks).foldl (splitChildStep CH pid) acc =
        (ks.map (batchOfTree pid)).reverse ++ acc
  | [], _, _, acc => by simp [flattenForest]
  | k :: ks, hroot, htail, acc => by
    obtain ⟨i, ty, js⟩ := k
    have hr := hroot _ (List.mem_cons_self _ _)
    have ht := htail _ (List.mem_cons_self _ _)
    have ih := split_foldl_forest CH pid ks
      (fun s hs => hroot s (List.mem_cons_of_mem _ hs))
      (fun s hs => htail s (List.mem_cons_of_mem _ hs))
    rw [flattenForest_cons, List.foldl_append, flattenTree_node, List.foldl_cons]
    rw [show splitChildStep CH pid acc (BlockTree.rootBlk (.node i ty js)) =
      ({ parentBlockId := pid, blocks := [BlockTree.rootBlk (.node i ty js)],
         children := [] } : UploadContentBatch) :: acc from by
        simp only [BlockTree.rootId] at hr
        simp [splitChildStep, BlockTree.rootBlk, contains_iff_mem.mp hr]]
    rw [splitChildStep_run CH pid (flattenForest js) (by simpa [BlockTree.kids] using ht)]
    rw [ih]
    simp [batchOfTree, BlockTree.kids, BlockTree.rootBlk]

/-- On a depth-first forest with globally distinct ids, the unitize pass
produces exactly one unit per top-level tree, each carrying its whole
subtree, in order. -/
theorem unitBatches_forest (doc : String) (ts : List BlockTree)
    (hnd : (idsOf (flattenForest ts)).Nodup) :
    unitBatches doc (flattenForest ts) = ts.map (batchOfTree doc) := by
  show ((flattenForest ts).foldl
    (unitStep (childIdsOf (flattenForest ts)) doc) []).reverse = _
  rw [unit_foldl_forest (childIdsOf (flattenForest ts)) doc ts
    (fun t ht => contains_eq_false_of_not_mem (root_not_mem_childIds hnd ht))
    (fun t ht x hx => contains_iff_mem.mpr (mem_childIds_of_tail ht hx)) []]
  simp

/-! Behaviour of splitBatch on well-formed single-root units. -/

theorem splitBatch_zero (b : UploadContentBatch) (maxd : Nat) :
    splitBatch 0 b maxd = none := rfl

theorem splitBatch_small_succ {b : UploadContentBatch} {maxd : Nat}
    (h : batchCnt b < maxd) (fuel : Nat) :
    splitBatch (fuel + 1) b maxd = some [b] := by
  unfold splitBatch
  rw [if_pos (show b.blocks.length + b.children.length < maxd from h)]

theorem splitBatch_small {b : UploadContentBatch} {maxd : Nat}
    (h : batchCnt b < maxd) :
    ∀ {fuel : Nat} {r : List UploadContentBatch},
      splitBatch fuel b maxd = some r → r = [b]
  | 0, r, he => by rw [splitBatch_zero] at he; cases he
  | fuel + 1, r, he => by
    rw [splitBatch_small_succ h] at he
    exact (Option.some.inj he).symm

theorem canonicalSplit_node (maxd : Nat) (anchor i : String) (ty : Nat)
    (ks : List BlockTree) :
    canonicalSplit maxd anchor (.node i ty ks) =
      if (flattenTree (.node i ty ks)).length < maxd then
        [batchOfTree anchor (.node i ty ks)]
      else
        rootOnlyBatch anchor (.node i ty ks) :: canonicalSplitKids maxd i ks := by
  unfold canonicalSplit
  rfl

theorem canonicalSplitKids_nil (maxd : Nat) (anchor : String) :
    canonicalSplitKids maxd anchor [] = [] := by
  unfold canonicalSplitKids
  rfl

theorem canonicalSplitKids_cons (maxd : Nat) (anchor : String) (k : BlockTree)
    (ks : List BlockTree) :
    canonicalSplitKids maxd anchor (k :: ks) =
      canonicalSplit maxd anchor k ++ canonicalSplitKids maxd anchor ks := by
  unfold canonicalSplitKids
  cases ks <;> rfl

theorem splitBatch_unfold_tree (anchor i : String) (ty : Nat)
    (ks : List BlockTree) (maxd f : Nat)
    (hnd : (idsOf (flattenTree (.node i ty ks))).Nodup)
    (hbig : ¬ (flattenTree (.node i ty ks)).length < maxd) :
    splitBatch (f + 1) (batchOfTree anchor (.node i ty ks)) maxd =
      flatMapM (fun b => splitBatch f b maxd)
        (rootOnlyBatch anchor (.node i ty ks) :: ks.map (batchOfTree i)) := by
  have hnk : (idsOf (flattenForest ks)).Nodup := nodup_tree_kids hnd
  have hlen : (flattenTree (.node i ty ks)).length =
      1 + (flattenForest ks).length := by
    simp [flattenTree_node, Nat.add_comm]
  have hfold := split_foldl_forest (ks.map BlockTree.rootId) i ks
    (fun k hk => contains_iff_mem.mpr (List.mem_map_of_mem _ hk))
    (fun k hk x hx =>
      contains_eq_false_of_not_mem (tail_not_mem_roots hnk hk hx)) []
  conv_lhs => rw [splitBatch]
  rw [if_neg (show ¬ ((batchOfTree anchor (BlockTree.node i ty ks)).blocks.length +
      (batchOfTree anchor (BlockTree.node i ty ks)).children.length < maxd) from by
    simp only [batchOfTree, BlockTree.kids, List.length_cons, List.length_nil]
    rw [hlen] at hbig
    omega)]
  simp only [batchOfTree, BlockTree.kids, BlockTree.rootBlk]
  rw [show (flattenForest ks).foldl
      (splitChildStep (ks.map BlockTree.rootId) i) [] =
      (ks.map (batchOfTree i)).reverse ++ [] from by
    simpa [BlockTree.rootBlk] using hfold]
  simp [rootOnlyBatch, BlockTree.rootBlk]

mutual

theorem splitBatch_canonicalT : ∀ (t : BlockTree) (anchor : String)
    (maxd fuel : Nat) (r : List UploadContentBatch), 2 ≤ maxd →
    (idsOf (flattenTree t)).Nodup →
    splitBatch fuel (batchOfTree anchor t) maxd = some r →
    r = canonicalSplit maxd anchor t
  | .node i ty ks, anchor, maxd, fuel, r, hmax, hnd, he => by
    cases fuel with
    | zero => rw [splitBatch_zero] at he; cases he
    | succ f =>
      rw [canonicalSplit_node]
      by_cases hsmall : (flattenTree (.node i ty ks)).length < maxd
      · rw [if_pos hsmall]
        exact splitBatch_small (by
          simp only [batchCnt, batchOfTree, BlockTree.kids, List.length_cons,
            List.length_nil]
          simp only [flattenTree_node, List.length_cons] at hsmall
          omega) he
      · rw [if_neg hsmall]
        rw [splitBatch_unfold_tree anchor i ty ks maxd f hnd hsmall] at he
        rw [flatMapM] at he
        obtain ⟨r0, h0, hrest⟩ := Option.bind_eq_some.mp he
        obtain ⟨rs, hs, hr⟩ := Option.map_eq_some'.mp hrest
        have hr0 : r0 = [rootOnlyBatch anchor (.node i ty ks)] :=
          splitBatch_small (by simp [batchCnt, rootOnlyBatch]; omega) h0
        have hrs : rs = canonicalSplitKids maxd i ks :=
          splitBatch_canonicalF ks i maxd f rs hmax (nodup_tree_kids hnd) hs
        rw [← hr, hr0, hrs]
        simp

theorem splitBatch_canonicalF : ∀ (ks : List BlockTree) (anchor : String)
    (maxd fuel : Nat) (r : List UploadContentBatch), 2 ≤ maxd →
    (idsOf (flattenForest ks)).Nodup →
    flatMapM (fun b => splitBatch fuel b maxd) (ks.map (batchOfTree anchor)) =
      some r →
    r = canonicalSplitKids maxd anchor ks
  | [], anchor, maxd, fuel, r, hmax, hnd, he => by
    rw [canonicalSplitKids_nil]
    simp only [List.map_nil, flatMapM] at he
    exact (Option.some.inj he).symm
  | k :: ks, anchor, maxd, fuel, r, hmax, hnd, he => by
    rw [canonicalSplitKids_cons]
    rw [flattenForest_cons, idsOf_append] at hnd
    have hnd1 := (List.nodup_append.mp hnd).1
    have hnd2 := (List.nodup_append.mp hnd).2.1
    simp only [List.map_cons, flatMapM] at he
    obtain ⟨r0, h0, hrest⟩ := Option.bind_eq_some.mp he
    obtain ⟨rs, hs, hr⟩ := Option.map_eq_some'.mp hrest
    have hr0 : r0 = canonicalSplit maxd anchor k :=
      splitBatch_canonicalT k anchor maxd fuel r0 hmax hnd1 h0
    have hrs : rs = canonicalSplitKids maxd anchor ks :=
      splitBatch_canonicalF ks anchor maxd fuel rs hmax hnd2 hs
    rw [← hr, hr0, hrs]

end

mutual

theorem splitBatch_totalT : ∀ (t : BlockTree) (anchor : String)
    (maxd fuel : Nat), 2 ≤ maxd → (idsOf (flattenTree t)).Nodup →
    (flattenTree t).length ≤ fuel →
    ∃ r, splitBatch fuel (batchOfTree anchor t) maxd = some r
  | .node i ty ks, anchor, maxd, fuel, hmax, hnd, hfuel => by
    have hpos := flattenTree_length_pos (.node i ty ks)
    cases fuel with
    | zero => omega
    | succ f =>
      by_cases hsmall : (flattenTree (.node i ty ks)).length < maxd
      · exact ⟨_, splitBatch_small_succ (by
          simp only [batchCnt, batchOfTree, BlockTree.kids, List.length_cons,
            List.length_nil]
          simp only [flattenTree_node, List.length_cons] at hsmall
          omega) f⟩
      · have hflen : maxd ≤ (flattenTree (.node i ty ks)).length := not_lt.mp hsmall
        have hlen : (flattenTree (.node i ty ks)).length =
            1 + (flattenForest ks).length := by
          simp [flattenTree_node, Nat.add_comm]
        cases f with
        | zero => omega
        | succ g =>
          have hparent : splitBatch (g + 1)
              (rootOnlyBatch anchor (.node i ty ks)) maxd =
              some [rootOnlyBatch anchor (.node i ty ks)] :=
            splitBatch_small_succ (by simp [batchCnt, rootOnlyBatch]; omega) g
          obtain ⟨rs, hrs⟩ := splitBatch_totalF ks i maxd (g + 1) hmax
            (nodup_tree_kids hnd)
            (fun k hk => by
              have h1 : (flattenTree k).length ≤ (flattenForest ks).length :=
                (flattenTree_sublist hk).length_le
              omega)
          refine ⟨[rootOnlyBatch anchor (.node i ty ks)] ++ rs, ?_⟩
          rw [splitBatch_unfold_tree anchor i ty ks maxd (g + 1) hnd hsmall]
          rw [flatMapM, hparent, Option.some_bind, hrs]
          rfl

theorem splitBatch_totalF : ∀ (ks : List BlockTree) (anchor : String)
    (maxd fuel : Nat), 2 ≤ maxd → (idsOf (flattenForest ks)).Nodup →
    (∀ k ∈ ks, (flattenTree k).length ≤ fuel) →
    ∃ r, flatMapM (fun b => splitBatch fuel b maxd)
      (ks.map (batchOfTree anchor)) = some r
  | [], anchor, maxd, fuel, hmax, hnd, hfuel => ⟨[], rfl⟩
  | k :: ks, anchor, maxd, fuel, hmax, hnd, hfuel => by
    rw [flattenForest_cons, idsOf_append] at hnd
    obtain ⟨r0, h0⟩ := splitBatch_totalT k anchor maxd fuel hmax
      (List.nodup_append.mp hnd).1 (hfuel k (List.mem_cons_self _ _))
    obtain ⟨rs, hs⟩ := splitBatch_totalF ks anchor maxd fuel hmax
      (List.nodup_append.mp hnd).2.1
      (fun s hs => hfuel s (List.mem_cons_of_mem _ hs))
    refine ⟨r0 ++ rs, ?_⟩
    simp only [List.map_cons, flatMapM, h0, hs]
    rfl

end

/-! Properties of the canonical split result. -/

mutual

theorem canonicalSplit_concat : ∀ (t : BlockTree) (maxd : Nat) (anchor : String),
    (canonicalSplit maxd anchor t).flatMap (fun b => b.blocks ++ b.children) =
      flattenTree t
  | .node i ty ks, maxd, anchor => by
    rw [canonicalSplit_node]
    by_cases h : (flattenTree (.node i ty ks)).length < maxd
    · rw [if_pos h]
      simp [batchOfTree, BlockTree.kids, flattenTree_node]
    · rw [if_neg h, List.flatMap_cons, canonicalSplitKids_concat ks maxd i]
      simp [rootOnlyBatch, flattenTree_node]

theorem canonicalSplitKids_concat : ∀ (ks : List BlockTree) (maxd : Nat)
    (anchor : String),
    (canonicalSplitKids maxd anchor ks).flatMap (fun b => b.blocks ++ b.children) =
      flattenForest ks
  | [], maxd, anchor => by rw [canonicalSplitKids_nil]; rfl
  | k :: ks, maxd, anchor => by
    rw [canonicalSplitKids_cons, List.flatMap_append,
      canonicalSplit_concat k maxd anchor,
      canonicalSplitKids_concat ks maxd anchor, flattenForest_cons]

end

mutual

theorem canonicalSplit_cnt : ∀ (t : BlockTree) (maxd : Nat) (anchor : String),
    2 ≤ maxd → ∀ b ∈ canonicalSplit maxd anchor t, batchCnt b < maxd
  | .node i ty ks, maxd, anchor, hmax, b, hb => by
    rw [canonicalSplit_node] at hb
    by_cases h : (flattenTree (.node i ty ks)).length < maxd
    · rw [if_pos h] at hb
      have hb2 : b = batchOfTree anchor (.node i ty ks) := by simpa using hb
      subst hb2
      simp only [batchCnt, batchOfTree, BlockTree.kids, List.length_cons,
        List.length_nil]
      simp only [flattenTree_node, List.length_cons] at h
      omega
    · rw [if_neg h] at hb
      rcases List.mem_cons.mp hb with hb | hb
      · subst hb
        simp only [batchCnt, rootOnlyBatch, List.length_cons, List.length_nil]
        omega
      · exact canonicalSplitKids_cnt ks maxd i hmax b hb

theorem canonicalSplitKids_cnt : ∀ (ks : List BlockTree) (maxd : Nat)
    (anchor : String), 2 ≤ maxd →
    ∀ b ∈ canonicalSplitKids maxd anchor ks, batchCnt b < maxd
  | [], maxd, anchor, hmax, b, hb => by rw [canonicalSplitKids_nil] at hb; cases hb
  | k :: ks, maxd, anchor, hmax, b, hb => by
    rw [canonicalSplitKids_cons] at hb
    rcases List.mem_append.mp hb with hb | hb
    · exact canonicalSplit_cnt k maxd anchor hmax b hb
    · exact canonicalSplitKids_cnt ks maxd anchor hmax b hb

end

/-! Multiset accounting for plans, and the merge pass. -/

theorem planMS_cons (b : UploadContentBatch) (l : List UploadContentBatch) :
    planMS (b :: l) = batchMS b + planMS l := by
  simp [planMS]

theorem planMS_reverse (l : List UploadContentBatch) :
    planMS l.reverse = planMS l := by
  unfold planMS
  rw [List.map_reverse]
  exact (List.reverse_perm _).sum_eq

theorem planMS_flatMap (l : List UploadContentBatch) :
    planMS l = ↑(l.flatMap fun b => b.blocks ++ b.children) := by
  induction l with
  | nil => rfl
  | cons b l ih =>
    rw [List.flatMap_cons, planMS_cons, ih, ← Multiset.coe_add]
    rfl

theorem merge_foldl_ms (maxd : Nat) : ∀ (l acc : List UploadContentBatch),
    planMS (l.foldl (mergeStep maxd) acc) = planMS acc + planMS l
  | [], acc => by simp [planMS]
  | b :: l, acc => by
    rw [List.foldl_cons, merge_foldl_ms maxd l (mergeStep maxd acc b)]
    have hstep : planMS (mergeStep maxd acc b) = planMS acc + batchMS b := by
      cases acc with
      | nil => simp [mergeStep, planMS, batchMS]
      | cons lastBatch rest =>
        by_cases hc : batchCnt lastBatch + batchCnt b ≤ maxd ∧
            lastBatch.parentBlockId = b.parentBlockId
        · simp only [mergeStep, if_pos hc, planMS_cons, batchMS,
            ← Multiset.coe_add]
          abel
        · simp only [mergeStep, if_neg hc, planMS_cons]
          abel
    rw [hstep, planMS_cons]
    abel

theorem mergeBatches_ms (maxd : Nat) (l : List UploadContentBatch) :
    planMS (mergeBatches maxd l) = planMS l := by
  rw [mergeBatches, planMS_reverse, merge_foldl_ms]
  simp [planMS]

theorem merge_foldl_cnt (maxd : Nat) : ∀ (l acc : List UploadContentBatch),
    (∀ b ∈ l, batchCnt b ≤ maxd) → (∀ b ∈ acc, batchCnt b ≤ maxd) →
    ∀ b ∈ l.foldl (mergeStep maxd) acc, batchCnt b ≤ maxd
  | [], acc, _, hacc, b, hb => hacc b hb
  | x :: l, acc, hl, hacc, b, hb => by
    rw [List.foldl_cons] at hb
    refine merge_foldl_cnt maxd l (mergeStep maxd acc x)
      (fun y hy => hl y (List.mem_cons_of_mem _ hy)) ?_ b hb
    have hx : batchCnt x ≤ maxd := hl x (List.mem_cons_self _ _)
    intro y hy
    cases acc with
    | nil =>
      have : y = x := by simpa [mergeStep] using hy
      subst this; exact hx
    | cons lastBatch rest =>
      by_cases hc : batchCnt lastBatch + batchCnt x ≤ maxd ∧
          lastBatch.parentBlockId = x.parentBlockId
      · simp only [mergeStep, if_pos hc] at hy
        rcases List.mem_cons.mp hy with hy | hy
        · subst hy
          simp only [batchCnt, List.length_append]
          have := hc.1
          simp only [batchCnt] at this
          omega
        · exact hacc y (List.mem_cons_of_mem _ hy)
      · simp only [mergeStep, if_neg hc] at hy
        rcases List.mem_cons.mp hy with hy | hy
        · subst hy; exact hx
        · exact hacc y hy

theorem mergeBatches_cnt (maxd : Nat) (l : List UploadContentBatch)
    (h : ∀ b ∈ l, batchCnt b ≤ maxd) :
    ∀ b ∈ mergeBatches maxd l, batchCnt b ≤ maxd := by
  intro b hb
  exact merge_foldl_cnt maxd l [] h (by simp) b
    (List.mem_reverse.mp hb)

theorem merge_foldl_anchor (maxd : Nat) (input : List UploadContentBatch) :
    ∀ (l acc : List UploadContentBatch), (∀ x ∈ l, x ∈ input) →
      (∀ b ∈ acc, MergedFrom input b) →
      ∀ b ∈ l.foldl (mergeStep maxd) acc, MergedFrom input b
  | [], acc, _, hacc, b, hb => hacc b hb
  | x :: l, acc, hl, hacc, b, hb => by
    rw [List.foldl_cons] at hb
    refine merge_foldl_anchor maxd input l (mergeStep maxd acc x)
      (fun y hy => hl y (List.mem_cons_of_mem _ hy)) ?_ b hb
    have hxin : x ∈ input := hl x (List.mem_cons_self _ _)
    have hsingle : MergedFrom input x :=
      ⟨[x], by simp, by simpa using hxin, by simp, by simp, by simp⟩
    intro y hy
    cases acc with
    | nil =>
      have : y = x := by simpa [mergeStep] using hy
      subst this; exact hsingle
    | cons lastBatch rest =>
      by_cases hc : batchCnt lastBatch + batchCnt x ≤ maxd ∧
          lastBatch.parentBlockId = x.parentBlockId
      · simp only [mergeStep, if_pos hc] at hy
        rcases List.mem_cons.mp hy with hy | hy
        · obtain ⟨sub, hne, hin, hanch, hbl, hch⟩ :=
            hacc lastBatch (List.mem_cons_self _ _)
          subst hy
          refine ⟨sub ++ [x], by simp, ?_, ?_, ?_, ?_⟩
          · intro z hz
            rcases List.mem_append.mp hz with hz | hz
            · exact hin z hz
            · rw [List.mem_singleton.mp hz]; exact hxin
          · intro z hz
            rcases List.mem_append.mp hz with hz | hz
            · exact hanch z hz
            · rw [List.mem_singleton.mp hz]
              exact hc.2.symm
          · simp [List.flatMap_append, ← hbl]
          · simp [List.flatMap_append, ← hch]
        · exact hacc y (List.mem_cons_of_mem _ hy)
      · simp only [mergeStep, if_neg hc] at hy
        rcases List.mem_cons.mp hy with hy | hy
        · subst hy; exact hsingle
        · exact hacc y hy

/-! The planner on a whole walker forest. -/

theorem uploadContentPlan_forest (ts : List BlockTree) (documentId : String)
    (maxd fuel : Nat) (plan : List UploadContentBatch) (hmax : 2 ≤ maxd)
    (hnd : (idsOf (flattenForest ts)).Nodup)
    (h : uploadContentPlan fuel documentId (flattenForest ts) maxd = some plan) :
    plan = mergeBatches maxd (canonicalSplitKids maxd documentId ts) := by
  rw [uploadContentPlan] at h
  obtain ⟨l, hl, hp⟩ := Option.map_eq_some'.mp h
  rw [splitBatchAll, unitBatches_forest documentId ts hnd] at hl
  rw [← hp, splitBatch_canonicalF ts documentId maxd fuel l hmax hnd hl]

theorem splitBatch_singleton_diverges (doc : String) (blk : DescendantBlock) :
    ∀ fuel, splitBatch fuel ⟨doc, [blk], []⟩ 1 = none
  | 0 => rfl
  | fuel + 1 => by
    conv_lhs => rw [splitBatch]
    rw [if_neg (by simp)]
    show flatMapM (fun b => splitBatch fuel b 1) [⟨doc, [blk], []⟩] = none
    rw [flatMapM, splitBatch_singleton_diverges doc blk fuel]
    rfl

/-! Claim theorems for the batch planner. -/

/-- C1 (amended): for every walker-produced block forest (each top-level
root immediately followed by all of its descendants in depth-first order,
all ids distinct) and every ceiling C greater or equal to 2, the three
planner passes of uploadContent terminate and the concatenation of every
output unit's blocks and children lists is, as a multiset, exactly the
original forest: no block duplicated, no block omitted.  The amendment
restricts the claimed ceiling range from C greater or equal to 1 to C
greater or equal to 2: at C equal to 1 the split pass recurses forever
(see the counterexample theorem). -/
theorem C1_plan_reconstruction (ts : List BlockTree) (documentId : String)
    (C fuel : Nat) (hC : 2 ≤ C)
    (hnd : (idsOf (flattenForest ts)).Nodup) :
    (∀ plan, uploadContentPlan fuel documentId (flattenForest ts) C = some plan →
      planMS plan = ↑(flattenForest ts)) ∧
    ((flattenForest ts).length ≤ fuel →
      ∃ plan, uploadContentPlan fuel documentId (flattenForest ts) C = some plan) := by
  constructor
  · intro plan h
    rw [uploadContentPlan_forest ts documentId C fuel plan hC hnd h]
    rw [mergeBatches_ms, planMS_flatMap, canonicalSplitKids_concat]
  · intro hfuel
    obtain ⟨r, hr⟩ := splitBatch_totalF ts documentId C fuel hC hnd
      (fun t ht => le_trans (flattenTree_sublist ht).length_le hfuel)
    refine ⟨mergeBatches C r, ?_⟩
    rw [uploadContentPlan, splitBatchAll, unitBatches_forest documentId ts hnd, hr]
    rfl

/-- Witness for C1: the planner on the concrete demo forest with ceiling 2
and fuel 10 succeeds and reproduces the forest multiset. -/
theorem C1_plan_reconstruction_witness :
    ∃ plan, uploadContentPlan 10 "doc" (flattenForest demoForest) 2 = some plan ∧
      planMS plan = ↑(flattenForest demoForest) := by
  obtain ⟨h1, h2⟩ := C1_plan_reconstruction demoForest "doc" 2 10
    (by decide) (by decide)
  obtain ⟨plan, hp⟩ := h2 (by decide)
  exact ⟨plan, hp, h1 plan hp⟩

/-- Counterexample to C1 as stated: with ceiling C equal to 1 (allowed by
the claim, which requires only C greater or equal to 1) the planner never
produces any unit sequence on a one-block forest — splitBatch has no base
case there and the recursion diverges for every fuel budget, which in the
running program is a stack overflow.  Hence no sequence of units
reconstructing the forest is produced at C equal to 1. -/
theorem C1_counterexample :
    PlanDiverges "doc" (flattenForest [.node "a" 2 []]) 1 := by
  intro fuel
  rw [uploadContentPlan]
  rw [show unitBatches "doc" (flattenForest [.node "a" 2 []]) =
    [⟨"doc", [⟨"a", 2, []⟩], []⟩] from by decide]
  rw [splitBatchAll, flatMapM, splitBatch_singleton_diverges]
  rfl

/-- C2 (amended): on a depth-first walker forest with distinct ids and any
ceiling C greater or equal to 2, every unit of the final planned sequence
satisfies len(blocks) + len(children) less or equal to C.  The amendment
weakens the claimed strict bound to a non-strict one (the merge pass
combines two units whenever the combined size is at most C, so a final
unit of size exactly C is reachable) and restricts C greater or equal to 1
to C greater or equal to 2 (divergence at 1). -/
theorem C2_ceiling (ts : List BlockTree) (documentId : String)
    (C fuel : Nat) (plan : List UploadContentBatch) (hC : 2 ≤ C)
    (hnd : (idsOf (flattenForest ts)).Nodup)
    (h : uploadContentPlan fuel documentId (flattenForest ts) C = some plan) :
    ∀ b ∈ plan, batchCnt b ≤ C := by
  rw [uploadContentPlan_forest ts documentId C fuel plan hC hnd h]
  exact mergeBatches_cnt C _
    (fun b hb => le_of_lt (canonicalSplitKids_cnt ts C documentId hC b hb))

/-- Witness for C2: on the demo forest with ceiling 2 the planner yields a
plan whose first unit satisfies the bound. -/
theorem C2_ceiling_witness :
    batchCnt (⟨"doc", [⟨"a", 2, ["b"]⟩], []⟩ : UploadContentBatch) ≤ 2 :=
  C2_ceiling demoForest "doc" 2 10
    [⟨"doc", [⟨"a", 2, ["b"]⟩], []⟩, ⟨"a", [⟨"b", 12, []⟩], []⟩,
     ⟨"doc", [⟨"c", 2, []⟩], []⟩]
    (by decide) (by decide) (by decide) _ (by decide)

/-- Counterexample to C2 as stated: two singleton roots under ceiling
C equal to 2 (a forest in walker order, C at least 1) are merged into one
final unit of size exactly 2, violating the claimed strict inequality
len(blocks) + len(children) less than C. -/
theorem C2_counterexample :
    uploadContentPlan 6 "doc" (flattenForest [.node "a" 2 [], .node "b" 2 []]) 2 =
      some [⟨"doc", [⟨"a", 2, []⟩, ⟨"b", 2, []⟩], []⟩] ∧
    ¬ batchCnt ⟨"doc", [⟨"a", 2, []⟩, ⟨"b", 2, []⟩], []⟩ < 2 := by
  decide

/-- C3: in the merge pass, a unit is combined into the running batch only
when both share the same parentBlockId; consequently every emitted batch
is the in-order concatenation of a nonempty selection of input units all
carrying the batch's single anchor — units with different anchors are
never merged into one batch. -/
theorem C3_anchor_consistency (maxd : Nat) (input : List UploadContentBatch) :
    ∀ out ∈ mergeBatches maxd input, MergedFrom input out := by
  intro out hout
  exact merge_foldl_anchor maxd input input [] (fun x hx => hx) (by simp) out
    (List.mem_reverse.mp hout)

/-- Witness for C3 at a concrete merge: two same-anchor units are merged
and the output unit is assembled from exactly those two inputs. -/
theorem C3_anchor_consistency_witness :
    MergedFrom
      [⟨"doc", [⟨"a", 2, []⟩], []⟩, ⟨"doc", [⟨"b", 2, []⟩], []⟩]
      ⟨"doc", [⟨"a", 2, []⟩, ⟨"b", 2, []⟩], []⟩ := by
  refine C3_anchor_consistency 10
    [⟨"doc", [⟨"a", 2, []⟩], []⟩, ⟨"doc", [⟨"b", 2, []⟩], []⟩] _ ?_
  decide

/-! The IdMapping table: repeated Map.set semantics. -/

theorem foldl_set_apply : ∀ (l : List (String × String))
    (m0 : String → Option String) (k : String),
    (l.foldl (fun m rel => fun q => if q = rel.1 then some rel.2 else m q) m0) k =
      match lastLookup k l with
      | some v => some v
      | none => m0 k
  | [], m0, k => rfl
  | rel :: l, m0, k => by
    rw [List.foldl_cons, foldl_set_apply l _ k]
    show _ = (match lastLookup k (rel :: l) with
      | some v => some v
      | none => m0 k)
    show (match lastLookup k l with
      | some v => some v
      | none => if k = rel.1 then some rel.2 else m0 k) = _
    rw [show lastLookup k (rel :: l) = (match lastLookup k l with
      | some v => some v
      | none => if k = rel.1 then some rel.2 else none) from rfl]
    cases lastLookup k l with
    | some v => rfl
    | none => by_cases hk : k = rel.1 <;> simp [hk]

theorem buildIdMapping_apply (l : List (String × String)) (k : String) :
    buildIdMapping l k = lastLookup k l := by
  rw [buildIdMapping, foldl_set_apply]
  cases lastLookup k l <;> rfl

theorem lastLookup_none_iff (k : String) : ∀ (l : List (String × String)),
    lastLookup k l = none ↔ k ∉ l.map Prod.fst
  | [] => by simp [lastLookup]
  | rel :: l => by
    have ih := lastLookup_none_iff k l
    constructor
    · intro h
      simp only [lastLookup] at h
      cases hl : lastLookup k l with
      | some v => rw [hl] at h; cases h
      | none =>
        rw [hl] at h
        by_cases hk : k = rel.1
        · rw [if_pos hk] at h; cases h
        · simp only [List.map_cons, List.mem_cons]
          push_neg
          exact ⟨hk, ih.mp hl⟩
    · intro h
      simp only [List.map_cons, List.mem_cons] at h
      push_neg at h
      simp only [lastLookup, ih.mpr h.2, if_neg h.1]

theorem lastLookup_some_mem (k v : String) : ∀ (l : List (String × String)),
    lastLookup k l = some v → (k, v) ∈ l
  | [], h => by cases h
  | rel :: l, h => by
    simp only [lastLookup] at h
    cases hl : lastLookup k l with
    | some w =>
      rw [hl] at h
      have hw : w = v := Option.some.inj h
      exact List.mem_cons_of_mem _ (lastLookup_some_mem k v l (hw ▸ hl))
    | none =>
      rw [hl] at h
      by_cases hk : k = rel.1
      · rw [if_pos hk] at h
        have hv : rel.2 = v := Option.some.inj h
        have : (k, v) = rel := by
          obtain ⟨r1, r2⟩ := rel
          simp only at hk hv
          simp [hk, hv]
        rw [this]
        exact List.mem_cons_self _ _
      · rw [if_neg hk] at h; cases h

theorem mem_lastLookup (k v : String) : ∀ (l : List (String × String)),
    (l.map Prod.fst).Nodup → (k, v) ∈ l → lastLookup k l = some v
  | [], _, hm => by cases hm
  | rel :: l, hnd, hm => by
    have hnd2 := List.nodup_cons.mp hnd
    rcases List.mem_cons.mp hm with hm | hm
    · have hk : k = rel.1 := by rw [← hm]
      have hnone : lastLookup k l = none :=
        (lastLookup_none_iff k l).mpr (hk ▸ hnd2.1)
      simp only [lastLookup, hnone, if_pos hk]
      rw [← hm]
    · have := mem_lastLookup k v l hnd2.2 hm
      simp only [lastLookup, this]

theorem buildIdMapping_perm (rel1 rel2 : List (String × String))
    (hnd : (rel1.map Prod.fst).Nodup) (hp : rel1.Perm rel2) :
    buildIdMapping rel1 = buildIdMapping rel2 := by
  funext k
  rw [buildIdMapping_apply, buildIdMapping_apply]
  have hnd2 : (rel2.map Prod.fst).Nodup := (hp.map Prod.fst).nodup hnd
  cases h : lastLookup k rel1 with
  | some v =>
    rw [mem_lastLookup k v rel2 hnd2
      (hp.subset (lastLookup_some_mem k v rel1 h))]
  | none =>
    rw [(lastLookup_none_iff k rel2).mpr (fun hm =>
      (lastLookup_none_iff k rel1).mp h ((hp.map Prod.fst).mem_iff.mpr hm))]

/-! The media-upload collection loop. -/

theorem collectImageUpdates_target (m : String → Option String)
    (bufs : List (String × ImageReference))
    (up : String → String → Option String) (blocks : List DescendantBlock) :
    ∀ req ∈ collectImageUpdates m bufs up blocks,
      ∃ b ∈ blocks, b.block_type = BlockType.Image ∧
        m b.block_id = some req.block_id := by
  intro req hreq
  obtain ⟨b, hb, he⟩ := List.mem_filterMap.mp hreq
  refine ⟨b, hb, ?_⟩
  unfold uploadImageUpdate at he
  split at he
  · cases he
  · next hty =>
    have hImage : b.block_type = BlockType.Image := not_not.mp hty
    refine ⟨hImage, ?_⟩
    split at he
    · cases he
    · next realId hmap =>
      split at he
      · cases he
      · next prepared hbuf =>
        split at he
        · obtain ⟨tok, _, hr⟩ := Option.map_eq_some'.mp he
          rw [hmap, ← hr]
        · obtain ⟨tok, _, hr⟩ := Option.map_eq_some'.mp he
          rw [hmap, ← hr]
        · cases he

theorem collectImageUpdates_skip (m : String → Option String)
    (bufs : List (String × ImageReference))
    (up : String → String → Option String)
    (xs ys : List DescendantBlock) (b : DescendantBlock)
    (h : uploadImageUpdate m bufs up b = none) :
    collectImageUpdates m bufs up (xs ++ b :: ys) =
      collectImageUpdates m bufs up xs ++ collectImageUpdates m bufs up ys := by
  unfold collectImageUpdates
  rw [List.filterMap_append]
  simp [List.filterMap_cons, h]

/-! Behaviour of processImages on a failing entry. -/

theorem processImagesEntry_fail (blocks : List DescendantBlock)
    (readFileOracle : String → Option (List Nat))
    (downloadOracle : String → Option (List Nat × String))
    (downloadImages : Option Bool) (bid : String) (data : ImageReference)
    (block : DescendantBlock)
    (h1 : blocks.find? (fun b => b.block_id == bid) = some block)
    (h2 : block.block_type = BlockType.Image)
    (h3 : ∀ buf fn, data.source ≠ ImageSource.buffer buf fn)
    (h4 : loadImage readFileOracle downloadOracle data.source
      (downloadImages ≠ some false) = none) :
    processImagesEntry blocks readFileOracle downloadOracle downloadImages
      (bid, data) = none := by
  unfold processImagesEntry
  simp only [h1]
  rw [if_neg (by simp [h2])]
  cases hsrc : data.source with
  | buffer buf fn => exact absurd hsrc (h3 buf fn)
  | url u =>
    rw [hsrc] at h4
    simp only [h4]
  | path p =>
    rw [hsrc] at h4
    simp only [h4]

/-! The retry loop. -/

theorem retryGo_count {ε α : Type} (fn : Nat → Except ε α) (sr : ε → Bool)
    (d : ε → Nat → ℚ) :
    ∀ (left attempt : Nat), (retryGo fn sr d attempt left).2.1 ≤ left + 1
  | 0, attempt => by
    unfold retryGo
    cases fn attempt <;> simp
  | left + 1, attempt => by
    unfold retryGo
    cases fn attempt with
    | ok v => simp
    | error e =>
      by_cases hs : sr e
      · have := retryGo_count fn sr d left (attempt + 1)
        simp only [hs, if_true]
        omega
      · simp [hs]

theorem retryGo_first_success {ε α : Type} (fn : Nat → Except ε α)
    (sr : ε → Bool) (d : ε → Nat → ℚ) :
    ∀ (m attempt left : Nat) (v : α), m ≤ left →
      (∀ j, j < m → ∃ e, fn (attempt + j) = .error e ∧ sr e = true) →
      fn (attempt + m) = .ok v →
      (retryGo fn sr d attempt left).1 = .ok v
  | 0, attempt, left, v, hm, herr, hok => by
    unfold retryGo
    rw [show fn attempt = .ok v from by simpa using hok]
  | m + 1, attempt, left, v, hm, herr, hok => by
    obtain ⟨e, he, hse⟩ := herr 0 (Nat.succ_pos m)
    unfold retryGo
    rw [show fn attempt = .error e from by simpa using he]
    cases left with
    | zero => omega
    | succ l =>
      simp only [hse, if_true]
      exact retryGo_first_success fn sr d m (attempt + 1) l v (by omega)
        (fun j hj => by
          obtain ⟨e2, he2, hs2⟩ := herr (j + 1) (by omega)
          exact ⟨e2, by rw [show attempt + 1 + j = attempt + (j + 1) from by omega]; exact he2, hs2⟩)
        (by rw [show attempt + 1 + m = attempt + (m + 1) from by omega]; exact hok)

theorem retry_rethrow_immediately {ε α : Type} (fn : Nat → Except ε α)
    (retries : Nat) (bd md : ℚ) (sr : ε → Bool)
    (cd : Option (ε → Nat → ℚ)) (rand : Nat → ℚ) (e : ε)
    (h0 : fn 0 = .error e) (hs : sr e = false) :
    retryWithBackoff fn retries bd md sr cd rand = (.error e, 1, []) := by
  unfold retryWithBackoff retryGo
  rw [h0]
  cases retries with
  | zero => rfl
  | succ l => simp [hs]

/-! Claim theorems for the upload coordinator, the image pipeline and the
retry utility. -/

/-- C4: the media-upload step targets ids through the IdMapping built from
the response relations.  First conjunct: the mapping is insensitive to the
order of the relations array (keys being unique).  Second: every collected
update request belongs to an original Image block and its target id is the
server id the mapping assigns to that block's temporary id — never the
temporary id itself.  Third: a block whose iteration produces no request —
a missing mapping entry logs a warning and skips, a thrown media upload is
caught — leaves the requests of all other blocks untouched, so the loop
never aborts. -/
theorem C4_media_targets_real_ids (blocks : List DescendantBlock)
    (relations relations2 : List (String × String))
    (imageBuffers : List (String × ImageReference))
    (uploadMedia : String → String → Option String)
    (hnd : (relations.map Prod.fst).Nodup) (hperm : relations.Perm relations2) :
    buildIdMapping relations = buildIdMapping relations2 ∧
    (∀ req ∈ collectImageUpdates (buildIdMapping relations) imageBuffers
        uploadMedia blocks,
      ∃ b ∈ blocks, b.block_type = BlockType.Image ∧
        buildIdMapping relations b.block_id = some req.block_id) ∧
    (∀ xs b ys, blocks = xs ++ b :: ys →
      uploadImageUpdate (buildIdMapping relations) imageBuffers uploadMedia b =
        none →
      collectImageUpdates (buildIdMapping relations) imageBuffers uploadMedia
          blocks =
        collectImageUpdates (buildIdMapping relations) imageBuffers uploadMedia
            xs ++
          collectImageUpdates (buildIdMapping relations) imageBuffers
            uploadMedia ys) :=
  ⟨buildIdMapping_perm relations relations2 hnd hperm,
   collectImageUpdates_target _ _ _ _,
   fun xs b ys hsplit hb => by
     rw [hsplit]
     exact collectImageUpdates_skip _ _ _ xs ys b hb⟩

/-- Witness for C4: on the concrete blocks, relations given in either
order, the collected requests target real_image_1, the unmapped image is
skipped, and the loop result is exactly one request. -/
theorem C4_media_targets_real_ids_witness :
    collectImageUpdates (buildIdMapping demoRelations) demoBuffers
        demoUploadMedia demoImageBlocks = [⟨"real_image_1", "tok"⟩] ∧
    (buildIdMapping demoRelations = buildIdMapping demoRelationsRev ∧
      (∀ req ∈ collectImageUpdates (buildIdMapping demoRelations) demoBuffers
          demoUploadMedia demoImageBlocks,
        ∃ b ∈ demoImageBlocks, b.block_type = BlockType.Image ∧
          buildIdMapping demoRelations b.block_id = some req.block_id) ∧
      (∀ xs b ys, demoImageBlocks = xs ++ b :: ys →
        uploadImageUpdate (buildIdMapping demoRelations) demoBuffers
          demoUploadMedia b = none →
        collectImageUpdates (buildIdMapping demoRelations) demoBuffers
            demoUploadMedia demoImageBlocks =
          collectImageUpdates (buildIdMapping demoRelations) demoBuffers
              demoUploadMedia xs ++
            collectImageUpdates (buildIdMapping demoRelations) demoBuffers
              demoUploadMedia ys)) :=
  ⟨by decide,
   C4_media_targets_real_ids demoImageBlocks demoRelations demoRelationsRev
     demoBuffers demoUploadMedia (by decide) (by decide)⟩

/-- C8: when loadImage fails for one imageBuffers entry, processImages
deletes exactly that entry — the failure is absorbed, the blocks list is
returned unmodified, and every other entry is processed exactly as it
would have been without the failure. -/
theorem C8_process_images_isolation (blocks : List DescendantBlock)
    (readFileOracle : String → Option (List Nat))
    (downloadOracle : String → Option (List Nat × String))
    (downloadImages : Option Bool)
    (xs ys : List (String × ImageReference)) (bid : String)
    (data : ImageReference) (block : DescendantBlock)
    (h1 : blocks.find? (fun b => b.block_id == bid) = some block)
    (h2 : block.block_type = BlockType.Image)
    (h3 : ∀ buf fn, data.source ≠ ImageSource.buffer buf fn)
    (h4 : loadImage readFileOracle downloadOracle data.source
      (downloadImages ≠ some false) = none) :
    processImages blocks readFileOracle downloadOracle downloadImages
        (xs ++ (bid, data) :: ys) =
      (blocks,
        xs.filterMap (processImagesEntry blocks readFileOracle downloadOracle
          downloadImages) ++
        ys.filterMap (processImagesEntry blocks readFileOracle downloadOracle
          downloadImages)) := by
  unfold processImages
  rw [List.filterMap_append]
  simp [List.filterMap_cons,
    processImagesEntry_fail blocks readFileOracle downloadOracle
      downloadImages bid data block h1 h2 h3 h4]

/-- Witness for C8: a concrete run with a url entry whose download fails
between two processed entries; the failing entry disappears, the blocks
are untouched, the neighbours are normalized as usual. -/
theorem C8_process_images_isolation_witness :
    processImages [⟨"img1", 27, []⟩, ⟨"img2", 27, []⟩] (fun _ => none)
        (fun _ => none) none
        [("img1", ⟨.url "http://x/y.png", none⟩),
         ("img2", ⟨.buffer [7] "b.png", none⟩)] =
      ([⟨"img1", 27, []⟩, ⟨"img2", 27, []⟩],
       [("img2", ⟨.buffer [7] "b.png", some "b.png"⟩)]) := by
  have h := C8_process_images_isolation
    [⟨"img1", 27, []⟩, ⟨"img2", 27, []⟩] (fun _ => none) (fun _ => none) none
    [] [("img2", ⟨.buffer [7] "b.png", none⟩)] "img1"
    ⟨.url "http://x/y.png", none⟩ ⟨"img1", 27, []⟩ (by decide) rfl
    (fun buf fn h => by cases h) rfl
  rw [show ([] : List (String × ImageReference)) ++
    ("img1", (⟨.url "http://x/y.png", none⟩ : ImageReference)) ::
    [("img2", ⟨.buffer [7] "b.png", none⟩)] =
    [("img1", ⟨.url "http://x/y.png", none⟩),
     ("img2", ⟨.buffer [7] "b.png", none⟩)] from rfl] at h
  rw [h]
  decide

/-- C9: retryWithBackoff invokes the wrapped function at most retries + 1
times; it returns the first successful result; an error for which
shouldRetry is false is rethrown immediately after one invocation; under
the client retry options a non-rate-limit APIError is therefore never
retried; a rate-limited APIError carrying a parseable
x-ogw-ratelimit-reset header waits exactly that many seconds in
milliseconds, overriding the backoff formula, because a supplied
calculateDelay takes precedence over the built-in jittered backoff. -/
theorem C9_retry_with_backoff :
    (∀ (ε α : Type) (fn : Nat → Except ε α) (retries : Nat) (bd md : ℚ)
        (sr : ε → Bool) (cd : Option (ε → Nat → ℚ)) (rand : Nat → ℚ),
        (retryWithBackoff fn retries bd md sr cd rand).2.1 ≤ retries + 1) ∧
    (∀ (ε α : Type) (fn : Nat → Except ε α) (retries : Nat) (bd md : ℚ)
        (sr : ε → Bool) (cd : Option (ε → Nat → ℚ)) (rand : Nat → ℚ)
        (k : Nat) (v : α), k ≤ retries →
        (∀ j, j < k → ∃ e, fn j = Except.error e ∧ sr e = true) →
        fn k = Except.ok v →
        (retryWithBackoff fn retries bd md sr cd rand).1 = Except.ok v) ∧
    (∀ (ε α : Type) (fn : Nat → Except ε α) (retries : Nat) (bd md : ℚ)
        (sr : ε → Bool) (cd : Option (ε → Nat → ℚ)) (rand : Nat → ℚ) (e : ε),
        fn 0 = Except.error e → sr e = false →
        retryWithBackoff fn retries bd md sr cd rand =
          (Except.error e, 1, [])) ∧
    (∀ (α : Type) (fn : Nat → Except ClientError α) (retries : Nat)
        (bd md : ℚ) (cd : Option (ClientError → Nat → ℚ)) (rand : Nat → ℚ)
        (e : APIError),
        fn 0 = Except.error (ClientError.api e) → e.isRateLimitError = false →
        retryWithBackoff fn retries bd md clientShouldRetry cd rand =
          (Except.error (ClientError.api e), 1, [])) ∧
    (∀ (retryDelay : Nat) (rand : Nat → ℚ) (e : APIError) (attempt : Nat)
        (hs : List (String × String)) (s : String) (n : Int),
        e.isRateLimitError = true → e.headers = some hs →
        lookupKey hs "x-ogw-ratelimit-reset" = some s → s ≠ "" →
        parseIntDec s = some n →
        clientCalculateDelay retryDelay rand (.api e) attempt = (n : ℚ) * 1000) ∧
    (∀ (ε : Type) (bd md : ℚ) (rand : Nat → ℚ) (f : ε → Nat → ℚ) (e : ε)
        (attempt : Nat),
        retryDelayMs bd md rand (some f) e attempt = f e attempt) := by
  refine ⟨?_, ?_, ?_, ?_, ?_, ?_⟩
  · intro ε α fn retries bd md sr cd rand
    exact retryGo_count fn sr _ retries 0
  · intro ε α fn retries bd md sr cd rand k v hk herr hok
    exact retryGo_first_success fn sr _ k 0 retries v hk
      (fun j hj => by simpa using herr j hj) (by simpa using hok)
  · intro ε α fn retries bd md sr cd rand e h0 hs
    exact retry_rethrow_immediately fn retries bd md sr cd rand e h0 hs
  · intro α fn retries bd md cd rand e h0 hrl
    exact retry_rethrow_immediately fn retries bd md clientShouldRetry cd rand
      _ h0 (by simp [clientShouldRetry, hrl])
  · intro retryDelay rand e attempt hs s n hrl hh hl hne hp
    show (if e.isRateLimitError = true then _ else _) = _
    rw [if_pos hrl, hh]
    simp only [hl, hp, if_pos hne]
  · intro ε bd md rand f e attempt
    rfl

/-- Witness for C9: a non-rate-limit APIError is thrown back after exactly
one call with no delays, and the reset header of 7 seconds yields a delay
of exactly 7000 ms. -/
theorem C9_retry_with_backoff_witness :
    retryWithBackoff
        (fun _ => Except.error (ClientError.api ⟨400, 123, none⟩) :
          Nat → Except ClientError Nat)
        3 1000 10000 clientShouldRetry none (fun _ => 0) =
      (Except.error (ClientError.api ⟨400, 123, none⟩), 1, []) ∧
    clientCalculateDelay 1000 (fun _ => 0)
      (.api ⟨429, 0, some [("x-ogw-ratelimit-reset", "7")]⟩) 0 = 7000 := by
  constructor
  · exact C9_retry_with_backoff.2.2.1 ClientError Nat
      (fun _ => Except.error (ClientError.api ⟨400, 123, none⟩)) 3 1000 10000
      clientShouldRetry none (fun _ => 0) (ClientError.api ⟨400, 123, none⟩)
      rfl (by decide)
  · have h := C9_retry_with_backoff.2.2.2.2.1 1000 (fun _ => 0)
      ⟨429, 0, some [("x-ogw-ratelimit-reset", "7")]⟩ 0
      [("x-ogw-ratelimit-reset", "7")] "7" 7 (by decide) rfl (by decide)
      (by decide) (by decide)
    rw [h]
    norm_num

/-! Table chunking: properties of the slice loop and of handleTable. -/

theorem chunkGo_flatten (n : Nat) (hn : 1 ≤ n) :
    ∀ (fuel : Nat) (l : List α), l.length ≤ fuel →
      (chunkGo n fuel l).flatten = l := by
  intro fuel
  induction fuel with
  | zero =>
    intro l hl
    cases l with
    | nil => rfl
    | cons x xs => simp at hl
  | succ f ih =>
    intro l hl
    cases l with
    | nil => rfl
    | cons x xs =>
      show ((x :: xs).take n :: chunkGo n f ((x :: xs).drop n)).flatten = _
      rw [List.flatten_cons, ih ((x :: xs).drop n)
        (by simp only [List.length_cons] at hl
            simp only [List.length_drop, List.length_cons]
            omega)]
      exact List.take_append_drop n (x :: xs)

theorem chunkGo_mem (n : Nat) (hn : 1 ≤ n) :
    ∀ (fuel : Nat) (l : List α) (c : List α), c ∈ chunkGo n fuel l →
      c.length ≤ n ∧ c ≠ [] := by
  intro fuel
  induction fuel with
  | zero =>
    intro l c hc
    cases l with
    | nil => cases hc
    | cons x xs => cases hc
  | succ f ih =>
    intro l c hc
    cases l with
    | nil => cases hc
    | cons x xs =>
      rcases List.mem_cons.mp hc with hc | hc
      · subst hc
        refine ⟨List.length_take_le n (x :: xs), ?_⟩
        obtain ⟨m, hm⟩ := Nat.exists_eq_add_of_le hn
        subst hm
        rw [Nat.add_comm]
        simp
      · exact ih _ c hc

theorem chunkList_flatten (n : Nat) (hn : 1 ≤ n) (l : List α) :
    (chunkList n l).flatten = l :=
  chunkGo_flatten n hn l.length l le_rfl

theorem chunkList_mem (n : Nat) (hn : 1 ≤ n) (l : List α) (c : List α)
    (hc : c ∈ chunkList n l) : c.length ≤ n ∧ c ≠ [] :=
  chunkGo_mem n hn l.length l c hc

theorem chunkList_length_pos (n : Nat) (x : α) (xs : List α) :
    1 ≤ (chunkList n (x :: xs)).length := by
  show 1 ≤ (chunkGo n (xs.length + 1) (x :: xs)).length
  simp [chunkGo]

theorem tableSpecsOf_append (A B : List TBlock) :
    tableSpecsOf (A ++ B) = tableSpecsOf A ++ tableSpecsOf B :=
  List.filterMap_append _ _ _

theorem tableSpecsOf_pushChild (pid cid : String) : ∀ (L : List TBlock),
    tableSpecsOf (pushChildToParent pid cid L) = tableSpecsOf L
  | [] => rfl
  | b :: bs => by
    by_cases h : (b.block_id == pid) = true
    · simp only [pushChildToParent, if_pos h]
      show tableSpecsOf ({ b with children := b.children ++ [cid] } :: bs) = _
      unfold tableSpecsOf
      simp only [List.filterMap_cons]
    · simp only [pushChildToParent, if_neg h]
      unfold tableSpecsOf
      simp only [List.filterMap_cons]
      rw [show (pushChildToParent pid cid bs).filterMap _ =
        tableSpecsOf (pushChildToParent pid cid bs) from rfl]
      rw [tableSpecsOf_pushChild pid cid bs]
      rfl

theorem tableCellsGo_specs (O : TransformOracles) :
    ∀ (cells : List (List PhrasingContent)) (st : TransformContext),
      (tableCellsGo O cells st).2.2.2.blocks = st.blocks ∧
      tableSpecsOf (tableCellsGo O cells st).2.1 = [] ∧
      tableSpecsOf (tableCellsGo O cells st).2.2.1 = []
  | [], st => ⟨rfl, rfl, rfl⟩
  | cell :: cells, st => by
    have ih := tableCellsGo_specs O cells
      (genId O (genId O st).2).2
    refine ⟨ih.1, ?_, ?_⟩
    · show tableSpecsOf (_ :: (tableCellsGo O cells _).2.1) = []
      unfold tableSpecsOf
      rw [List.filterMap_cons]
      have h2 := ih.2.1
      unfold tableSpecsOf at h2
      simp only [h2]
      rfl
    · show tableSpecsOf (_ :: (tableCellsGo O cells _).2.2.1) = []
      unfold tableSpecsOf
      rw [List.filterMap_cons]
      have h2 := ih.2.2
      unfold tableSpecsOf at h2
      simp only [h2]
      simp [createTextBlock]

theorem handleTableChunk_specs (O : TransformOracles)
    (parentBlockId : Option String) (columnSize : Nat)
    (rows : List (List (List PhrasingContent))) (st : TransformContext) :
    tableSpecsOf (handleTableChunk O parentBlockId columnSize rows st).blocks =
      tableSpecsOf st.blocks ++ [(rows.length, columnSize)] := by
  unfold handleTableChunk
  have hc := tableCellsGo_specs O rows.flatten st
  cases parentBlockId with
  | none =>
    show tableSpecsOf ((_ ++ [_]) ++ _ ++ _) = _
    rw [tableSpecsOf_append, tableSpecsOf_append, tableSpecsOf_append,
      show (genId O (tableCellsGo O rows.flatten st).2.2.2).2.blocks =
        st.blocks from hc.1, hc.2.1, hc.2.2]
    simp [tableSpecsOf, createTableBlock]
  | some pid =>
    show tableSpecsOf (pushChildToParent pid _ (_ ++ [_]) ++ _ ++ _) = _
    rw [tableSpecsOf_append, tableSpecsOf_append, tableSpecsOf_pushChild,
      tableSpecsOf_append,
      show (genId O (tableCellsGo O rows.flatten st).2.2.2).2.blocks =
        st.blocks from hc.1, hc.2.1, hc.2.2]
    simp [tableSpecsOf, createTableBlock]

theorem handleTable_fold_specs (O : TransformOracles)
    (parentBlockId : Option String) (columnSize : Nat) :
    ∀ (chunks : List (List (List (List PhrasingContent))))
      (st : TransformContext),
      tableSpecsOf (chunks.foldl
        (fun st rows => handleTableChunk O parentBlockId columnSize rows st)
        st).blocks =
      tableSpecsOf st.blocks ++ chunks.map fun c => (c.length, columnSize)
  | [], st => by simp
  | rows :: chunks, st => by
    rw [List.foldl_cons,
      handleTable_fold_specs O parentBlockId columnSize chunks _,
      handleTableChunk_specs]
    simp

/-- C5 (amended): handleTable cuts a table with at least one row and one
column into one or more sibling Table blocks on row boundaries, each
chunk keeping the original column count, with the chunk row counts
summing to the row total; and provided the table has at most 20 columns,
every emitted chunk's rows times columns stays within the fixed ceiling
of 20 cells.  The amendment adds the at-most-20-columns hypothesis to the
ceiling conjunct: a table with more than 20 columns is cut into single-row
chunks that already exceed the ceiling (see the counterexample). -/
theorem C5_table_chunking (O : TransformOracles)
    (parentBlockId : Option String) (st : TransformContext)
    (r0 : List (List PhrasingContent))
    (rest : List (List (List PhrasingContent)))
    (hcols : 1 ≤ r0.length) (hle : r0.length ≤ 20) :
    tableSpecsOf (handleTable O parentBlockId (r0 :: rest) st).blocks =
      tableSpecsOf st.blocks ++
        (chunkList (max (MAX_CELLS_PER_TABLE / r0.length) 1) (r0 :: rest)).map
          (fun c => (c.length, r0.length)) ∧
    ((chunkList (max (MAX_CELLS_PER_TABLE / r0.length) 1) (r0 :: rest)).map
        List.length).sum = (r0 :: rest).length ∧
    1 ≤ (chunkList (max (MAX_CELLS_PER_TABLE / r0.length) 1)
      (r0 :: rest)).length ∧
    (∀ c ∈ chunkList (max (MAX_CELLS_PER_TABLE / r0.length) 1) (r0 :: rest),
      c.length * r0.length ≤ MAX_CELLS_PER_TABLE) := by
  have hn : 1 ≤ max (MAX_CELLS_PER_TABLE / r0.length) 1 := le_max_right _ _
  refine ⟨?_, ?_, chunkList_length_pos _ _ _, ?_⟩
  · show tableSpecsOf (handleTable O parentBlockId (r0 :: rest) st).blocks = _
    simp only [handleTable]
    rw [if_neg (by omega)]
    exact handleTable_fold_specs O parentBlockId r0.length _ st
  · rw [← List.length_flatten, chunkList_flatten _ hn]
  · intro c hc
    have hmem := chunkList_mem _ hn _ c hc
    have hmax : max (MAX_CELLS_PER_TABLE / r0.length) 1 =
        MAX_CELLS_PER_TABLE / r0.length := by
      have : 1 ≤ MAX_CELLS_PER_TABLE / r0.length := by
        apply Nat.one_le_div_iff (by omega) |>.mpr
        simpa [MAX_CELLS_PER_TABLE] using hle
      omega
    have h1 : c.length * r0.length ≤
        (MAX_CELLS_PER_TABLE / r0.length) * r0.length :=
      Nat.mul_le_mul_right _ (by rw [hmax] at hmem; exact hmem.1)
    exact le_trans h1 (Nat.div_mul_le_self _ _)

/-- Witness for C5: a 5-row, 10-column table is cut into chunks of row
counts 2, 2, 1 — three sibling Table blocks, 20, 20 and 10 cells. -/
theorem C5_table_chunking_witness :
    tableSpecsOf (handleTable demoOracles none
        (List.replicate 5 (List.replicate 10 ([] : List PhrasingContent)))
        initialContext).blocks = [(2, 10), (2, 10), (1, 10)] ∧
    tableSpecsOf (handleTable demoOracles none
        (List.replicate 5 (List.replicate 10 ([] : List PhrasingContent)))
        initialContext).blocks =
      tableSpecsOf initialContext.blocks ++
        (chunkList (max (MAX_CELLS_PER_TABLE / 10) 1)
          (List.replicate 5 (List.replicate 10 ([] : List PhrasingContent)))).map
          (fun c => (c.length, 10)) := by
  constructor
  · decide
  · have h := (C5_table_chunking demoOracles none initialContext
      (List.replicate 10 []) (List.replicate 4 (List.replicate 10 []))
      (by decide) (by decide)).1
    simpa using h

/-- Counterexample to C5 as stated: a one-row table with 21 columns (at
least one row and one column) is emitted as a single Table block of
1 x 21 = 21 cells, exceeding the claimed ceiling of 20. -/
theorem C5_counterexample :
    tableSpecsOf (handleTable demoOracles none
        [List.replicate 21 ([] : List PhrasingContent)]
        initialContext).blocks = [(1, 21)] ∧
    ¬ (1 * 21 ≤ MAX_CELLS_PER_TABLE) := by
  decide

/-! Inline style flattening: every produced run is flat and its style
extends the ambient context. -/

theorem ctxExtends_trans {a b c : StyleContext} (h1 : ctxExtends a b)
    (h2 : ctxExtends b c) : ctxExtends a c :=
  ⟨fun h => h2.1 (h1.1 h), fun h => h2.2.1 (h1.2.1 h),
   fun h => h2.2.2.1 (h1.2.2.1 h), fun h => h2.2.2.2.1 (h1.2.2.2.1 h),
   fun h => h2.2.2.2.2 (h1.2.2.2.2 h)⟩

theorem ctxExtends_set_bold (ctx : StyleContext) :
    ctxExtends ctx { ctx with bold := true } :=
  ⟨fun _ => rfl, fun h => h, fun h => h, fun h => h, fun h => h⟩

theorem ctxExtends_set_italic (ctx : StyleContext) :
    ctxExtends ctx { ctx with italic := true } :=
  ⟨fun h => h, fun _ => rfl, fun h => h, fun h => h, fun h => h⟩

theorem ctxExtends_set_strike (ctx : StyleContext) :
    ctxExtends ctx { ctx with strikethrough := true } :=
  ⟨fun h => h, fun h => h, fun _ => rfl, fun h => h, fun h => h⟩

theorem ctxExtends_set_code (ctx : StyleContext) :
    ctxExtends ctx { ctx with inlineCode := true } :=
  ⟨fun h => h, fun h => h, fun h => h, fun h => h, fun _ => rfl⟩

theorem ctxExtends_set_link (ctx : StyleContext) (url : String) :
    ctxExtends ctx { ctx with link := some url } :=
  ⟨fun h => h, fun h => h, fun h => h, fun h => h, fun h => h⟩

theorem buildTextStyle_styles (enc : String → String) (ctx : StyleContext)
    (v : String) :
    ctxExtends ctx (elemStyleCtx (createTextElement v (buildTextStyle enc ctx))) := by
  unfold createTextElement buildTextStyle
  by_cases h : (ctx.bold || ctx.italic || ctx.strikethrough || ctx.underline ||
      ctx.inlineCode || styleLinkActive ctx) = true
  · rw [if_pos h]
    exact ⟨fun hb => hb, fun hb => hb, fun hb => hb, fun hb => hb, fun hb => hb⟩
  · rw [if_neg h]
    simp only [Bool.or_eq_true, not_or, Bool.not_eq_true] at h
    refine ⟨?_, ?_, ?_, ?_, ?_⟩ <;> intro hb <;> simp_all

mutual

theorem extractOne_styles (enc : String → String) :
    ∀ (n : PhrasingContent) (ctx : StyleContext) (e : TextElement),
      e ∈ extractOne enc n ctx → ctxExtends ctx (elemStyleCtx e)
  | .text v, ctx, e, he => by
    simp only [extractOne, List.mem_singleton] at he
    subst he
    exact buildTextStyle_styles enc ctx v
  | .strong children, ctx, e, he =>
    ctxExtends_trans (ctxExtends_set_bold ctx)
      (extractTextElements_styles enc children _ e he)
  | .emphasis children, ctx, e, he =>
    ctxExtends_trans (ctxExtends_set_italic ctx)
      (extractTextElements_styles enc children _ e he)
  | .delete children, ctx, e, he =>
    ctxExtends_trans (ctxExtends_set_strike ctx)
      (extractTextElements_styles enc children _ e he)
  | .inlineCode v, ctx, e, he => by
    simp only [extractOne, List.mem_singleton] at he
    subst he
    exact ctxExtends_trans (ctxExtends_set_code ctx)
      (buildTextStyle_styles enc { ctx with inlineCode := true } v)
  | .link url children, ctx, e, he =>
    ctxExtends_trans (ctxExtends_set_link ctx url)
      (extractTextElements_styles enc children _ e he)
  | .image url alt, ctx, e, he => by
    simp only [extractOne, List.mem_singleton] at he
    subst he
    exact buildTextStyle_styles enc ctx _
  | .lineBreak, ctx, e, he => by
    simp only [extractOne, List.mem_singleton] at he
    subst he
    exact buildTextStyle_styles enc ctx _
  | .other children, ctx, e, he =>
    extractTextElements_styles enc children ctx e he

theorem extractTextElements_styles (enc : String → String) :
    ∀ (ns : List PhrasingContent) (ctx : StyleContext) (e : TextElement),
      e ∈ extractTextElements enc ns ctx → ctxExtends ctx (elemStyleCtx e)
  | [], _, e, he => absurd he (by simp [extractTextElements])
  | n :: rest, ctx, e, he => by
    simp only [extractTextElements] at he
    rcases List.mem_append.mp he with h | h
    · exact extractOne_styles enc n ctx e h
    · exact extractTextElements_styles enc rest ctx e h

end

/-- C6 (amended): for any percent-encoding oracle, the nested-emphasis
example strong of [text bold-space, emphasis of [text italic],
text space-text] flattens to exactly THREE styled runs: the run holding
bold-space with bold only, the run holding italic with bold and italic,
and the run holding space-text with bold only - not the two runs the
claim states, since the trailing text after the inner emphasis is a
separate run (see the counterexample).  In general the output of
extractTextElements is a flat run list in which every run's style flags
extend the ambient context, so nesting never survives as structure. -/
theorem C6_nested_emphasis_flattening (enc : String → String) :
    extractTextElements enc
      [.strong [.text "bold ", .emphasis [.text "italic"], .text " text"]]
      emptyStyleContext =
      [⟨"bold ", some ⟨true, false, false, false, false, none⟩⟩,
       ⟨"italic", some ⟨true, true, false, false, false, none⟩⟩,
       ⟨" text", some ⟨true, false, false, false, false, none⟩⟩] ∧
    (∀ (ns : List PhrasingContent) (ctx : StyleContext) (e : TextElement),
      e ∈ extractTextElements enc ns ctx → ctxExtends ctx (elemStyleCtx e)) :=
  ⟨rfl, fun ns ctx e he => extractTextElements_styles enc ns ctx e he⟩

/-- Witness for C6 at a concrete encoder: the identity encoder yields the
three flattened runs. -/
theorem C6_nested_emphasis_flattening_witness :
    extractTextElements (fun s => s)
      [.strong [.text "bold ", .emphasis [.text "italic"], .text " text"]]
      emptyStyleContext =
      [⟨"bold ", some ⟨true, false, false, false, false, none⟩⟩,
       ⟨"italic", some ⟨true, true, false, false, false, none⟩⟩,
       ⟨" text", some ⟨true, false, false, false, false, none⟩⟩] :=
  (C6_nested_emphasis_flattening (fun s => s)).1

/-- Counterexample to C6 as stated: the example does NOT produce the two
claimed runs bold-space and italic-text; the actual output has three
runs. -/
theorem C6_counterexample :
    extractTextElements (fun s => s)
      [.strong [.text "bold ", .emphasis [.text "italic"], .text " text"]]
      emptyStyleContext ≠
      [⟨"bold ", some ⟨true, false, false, false, false, none⟩⟩,
       ⟨"italic text", some ⟨true, true, false, false, false, none⟩⟩] := by
  decide

/-- C7: when the fenced language normalizes case-insensitively to
mermaid, diagram rendering is enabled, and the renderer throws, the
code-block visit falls back to a plain Code block holding the original
source text with language mapCodeLanguage of the literal mermaid - which
is 1, PlainText, as the language map has no mermaid entry - and the
visit returns a state normally, so the failure never escapes the
handler. -/
theorem C7_mermaid_fallback (O : TransformOracles) (lang : Option String)
    (value : String) (parentBlockId : Option String) (st : TransformContext)
    (hm : isMermaidLanguage lang = true)
    (hen : O.mermaidEnabled = true)
    (hr : O.render value = none) :
    visitNode O (.code lang value) parentBlockId st =
      addBlock (createCodeBlock value (mapCodeLanguage (some "mermaid"))
        (O.fresh st.ctr)) parentBlockId { st with ctr := st.ctr + 1 } ∧
    mapCodeLanguage (some "mermaid") = 1 := by
  constructor
  · simp only [visitNode, hm, hen, Bool.and_self, if_true, hr, genId]
  · decide

/-- Witness for C7: a Mermaid fenced block under the demo oracles, whose
renderer always fails, becomes a PlainText Code block. -/
theorem C7_mermaid_fallback_witness :
    isMermaidLanguage (some "Mermaid") = true ∧
    demoOracles.mermaidEnabled = true ∧
    demoOracles.render "graph TD" = none ∧
    (visitNode demoOracles (.code (some "Mermaid") "graph TD") none
        initialContext =
      addBlock (createCodeBlock "graph TD" (mapCodeLanguage (some "mermaid"))
        (demoOracles.fresh initialContext.ctr)) none
        { initialContext with ctr := initialContext.ctr + 1 } ∧
      mapCodeLanguage (some "mermaid") = 1) :=
  ⟨by decide, rfl, rfl,
    C7_mermaid_fallback demoOracles (some "Mermaid") "graph TD" none
      initialContext (by decide) rfl rfl⟩

/-! Transformer id and ordering invariants: groundwork lemmas. -/

theorem childrenLater_append : ∀ {A : List TBlock} {B : List TBlock},
    ChildrenLater A → ChildrenLater B → ChildrenLater (A ++ B)
  | [], _, _, hB => hB
  | a :: A, B, hA, hB => by
    refine ⟨?_, childrenLater_append hA.2 hB⟩
    intro cid hc
    rw [List.append_eq, List.map_append]
    exact List.mem_append_left _ (hA.1 cid hc)

theorem childrenLater_of_empty : ∀ {B : List TBlock},
    (∀ b ∈ B, b.children = []) → ChildrenLater B
  | [], _ => trivial
  | b :: B, h => by
    refine ⟨?_, childrenLater_of_empty fun b2 hb2 => h b2 (List.mem_cons_of_mem _ hb2)⟩
    intro cid hc
    rw [h b (List.mem_cons_self _ _)] at hc
    cases hc

theorem childrenLater_pairs : ∀ {A B : List TBlock},
    (∀ b ∈ A, ∀ cid ∈ b.children, cid ∈ B.map TBlock.block_id) →
    ChildrenLater B → ChildrenLater (A ++ B)
  | [], _, _, hB => hB
  | a :: A, B, hAB, hB => by
    refine ⟨?_, childrenLater_pairs
      (fun b hb cid hc => hAB b (List.mem_cons_of_mem _ hb) cid hc) hB⟩
    intro cid hc
    rw [List.append_eq, List.map_append]
    exact List.mem_append_right _ (hAB a (List.mem_cons_self _ _) cid hc)

theorem pushChild_map_id (pid cid : String) :
    ∀ L, (pushChildToParent pid cid L).map TBlock.block_id =
      L.map TBlock.block_id
  | [] => rfl
  | b :: bs => by
    by_cases h : (b.block_id == pid) = true
    · simp only [pushChildToParent]
      rw [if_pos h]
      rfl
    · simp only [pushChildToParent]
      rw [if_neg h]
      simp only [List.map_cons, pushChild_map_id pid cid bs]

theorem pushChild_append_last (pid cid : String) (blk : TBlock)
    (h : (blk.block_id == pid) = false) :
    ∀ A, pushChildToParent pid cid (A ++ [blk]) =
      pushChildToParent pid cid A ++ [blk]
  | [] => by
    show pushChildToParent pid cid [blk] = [blk]
    simp only [pushChildToParent]
    rw [if_neg (by simp [h])]
  | a :: A => by
    by_cases ha : (a.block_id == pid) = true
    · simp only [List.cons_append, pushChildToParent]
      rw [if_pos ha, if_pos ha]
      rfl
    · simp only [List.cons_append, pushChildToParent]
      rw [if_neg ha, if_neg ha, List.append_eq,
        pushChild_append_last pid cid blk h A]
      rfl

theorem childrenLater_push_append (pid cid : String) {B : List TBlock}
    (hcid : cid ∈ B.map TBlock.block_id) (hB : ChildrenLater B) :
    ∀ {A : List TBlock}, ChildrenLater A →
      ChildrenLater (pushChildToParent pid cid A ++ B)
  | [], _ => hB
  | a :: A, hA => by
    by_cases ha : (a.block_id == pid) = true
    · simp only [pushChildToParent]
      rw [if_pos ha]
      refine ⟨?_, childrenLater_append hA.2 hB⟩
      intro c hc
      rw [List.append_eq, List.map_append]
      rcases List.mem_append.mp hc with h | h
      · exact List.mem_append_left _ (hA.1 c h)
      · rw [List.mem_singleton.mp h]
        exact List.mem_append_right _ hcid
    · simp only [pushChildToParent]
      rw [if_neg ha]
      refine ⟨?_, childrenLater_push_append pid cid hcid hB hA.2⟩
      intro c hc
      rw [List.append_eq, List.map_append, pushChild_map_id]
      exact List.mem_append_left _ (hA.1 c hc)

theorem childrenLater_mem : ∀ {L : List TBlock} {b : TBlock} {cid : String},
    ChildrenLater L → b ∈ L → cid ∈ b.children →
    cid ∈ L.map TBlock.block_id
  | [], _, _, _, hb, _ => absurd hb (by simp)
  | a :: T, b, cid, hL, hb, hc => by
    rcases List.mem_cons.mp hb with h | h
    · subst h
      exact List.mem_cons_of_mem _ (hL.1 cid hc)
    · exact List.mem_cons_of_mem _ (childrenLater_mem hL.2 h hc)

theorem childrenLater_get : ∀ (L : List TBlock), ChildrenLater L →
    ∀ (i : Nat) (hi : i < L.length) (cid : String),
      cid ∈ (L.get ⟨i, hi⟩).children →
      ∃ j, ∃ hj : j < L.length, i < j ∧ (L.get ⟨j, hj⟩).block_id = cid
  | [], _, i, hi, _, _ => absurd hi (by simp)
  | a :: T, hL, 0, hi, cid, hc => by
    obtain ⟨b, hbT, hbid⟩ := List.mem_map.mp (hL.1 cid hc)
    obtain ⟨⟨j, hj⟩, hget⟩ := List.get_of_mem hbT
    refine ⟨j + 1, by simp only [List.length_cons]; omega, Nat.succ_pos j, ?_⟩
    show (T.get ⟨j, hj⟩).block_id = cid
    rw [hget, hbid]
  | a :: T, hL, i + 1, hi, cid, hc => by
    obtain ⟨j, hj, hij, hid⟩ := childrenLater_get T hL.2 i
      (by simp only [List.length_cons] at hi; omega) cid hc
    exact ⟨j + 1, by simp only [List.length_cons]; omega, by omega, hid⟩

theorem nodup_append_fresh (O : TransformOracles)
    (hinj : Function.Injective O.fresh) (m : Nat) {A B : List String}
    (hA : ∀ id ∈ A, ∃ k, k < m ∧ id = O.fresh k)
    (hB : ∀ id ∈ B, ∃ k, m ≤ k ∧ id = O.fresh k)
    (hnA : A.Nodup) (hnB : B.Nodup) : (A ++ B).Nodup := by
  rw [List.nodup_append]
  refine ⟨hnA, hnB, ?_⟩
  intro x hxA hxB
  obtain ⟨k1, hk1, e1⟩ := hA x hxA
  obtain ⟨k2, hk2, e2⟩ := hB x hxB
  have hk : k1 = k2 := hinj (e1.symm.trans e2)
  omega

theorem freshBelow_mono {O : TransformOracles} {m m2 : Nat} {ids : List String}
    (h : m ≤ m2) (hf : FreshBelow O m ids) : FreshBelow O m2 ids := by
  intro id hid
  obtain ⟨k, hk, e⟩ := hf id hid
  exact ⟨k, by omega, e⟩

theorem freshBelow_append {O : TransformOracles} {m : Nat} {A B : List String}
    (hA : FreshBelow O m A) (hB : FreshBelow O m B) :
    FreshBelow O m (A ++ B) := by
  intro id hid
  rcases List.mem_append.mp hid with h | h
  · exact hA id h
  · exact hB id h

theorem parentOk_mono {O : TransformOracles} {parent : Option String}
    {c1 c2 : Nat} (h : c1 ≤ c2) (hp : ParentOk O parent c1) :
    ParentOk O parent c2 := by
  intro pid hpid
  obtain ⟨k, hk, e⟩ := hp pid hpid
  exact ⟨k, by omega, e⟩

theorem addBlock_ctr (blk : TBlock) (parent : Option String)
    (st : TransformContext) : (addBlock blk parent st).ctr = st.ctr := by
  cases parent <;> rfl

theorem addBlock_genId_inv (O : TransformOracles)
    (hinj : Function.Injective O.fresh) (mk : String → TBlock)
    (parent : Option String) (st : TransformContext)
    (hmkid : ∀ id, TBlock.block_id (mk id) = id)
    (hmkch : ∀ id, TBlock.children (mk id) = [])
    (hInv : TransformInv O st) (hp : ParentOk O parent st.ctr) :
    TransformInv O (addBlock (mk (genId O st).1) parent (genId O st).2) ∧
    st.ctr ≤ (addBlock (mk (genId O st).1) parent (genId O st).2).ctr := by
  obtain ⟨hF, hN, hC⟩ := hInv
  have hid : (mk (O.fresh st.ctr)).block_id = O.fresh st.ctr := hmkid _
  have hch : (mk (O.fresh st.ctr)).children = [] := hmkch _
  have hCB : ChildrenLater [mk (O.fresh st.ctr)] :=
    childrenLater_of_empty (by intro b hb; rw [List.mem_singleton.mp hb]; exact hch)
  have hNall : ((st.blocks.map TBlock.block_id) ++
      [(mk (O.fresh st.ctr)).block_id]).Nodup := by
    refine nodup_append_fresh O hinj st.ctr hF ?_ hN (List.nodup_singleton _)
    intro id2 h2
    rw [List.mem_singleton.mp h2]
    exact ⟨st.ctr, le_rfl, hid⟩
  have hFall : FreshBelow O (st.ctr + 1) ((st.blocks.map TBlock.block_id) ++
      [(mk (O.fresh st.ctr)).block_id]) := by
    refine freshBelow_append (freshBelow_mono (Nat.le_succ _) hF) ?_
    intro id2 h2
    rw [List.mem_singleton.mp h2]
    exact ⟨st.ctr, Nat.lt_succ_self _, hid⟩
  cases parent with
  | none =>
    refine ⟨⟨?_, ?_, ?_⟩, Nat.le_succ _⟩
    · show FreshBelow O (st.ctr + 1)
        ((st.blocks ++ [mk (O.fresh st.ctr)]).map TBlock.block_id)
      rw [List.map_append]
      exact hFall
    · show ((st.blocks ++ [mk (O.fresh st.ctr)]).map TBlock.block_id).Nodup
      rw [List.map_append]
      exact hNall
    · show ChildrenLater (st.blocks ++ [mk (O.fresh st.ctr)])
      exact childrenLater_append hC hCB
  | some pid =>
    obtain ⟨k0, hk0, e0⟩ := hp pid rfl
    have hne2 : ((mk (O.fresh st.ctr)).block_id == pid) = false := by
      rw [beq_eq_false_iff_ne, hid, e0]
      intro h
      exact absurd (hinj h) (by omega)
    have hpush := pushChild_append_last pid (mk (O.fresh st.ctr)).block_id
      (mk (O.fresh st.ctr)) hne2 st.blocks
    refine ⟨⟨?_, ?_, ?_⟩, Nat.le_succ _⟩
    · show FreshBelow O (st.ctr + 1)
        ((pushChildToParent pid (mk (O.fresh st.ctr)).block_id
          (st.blocks ++ [mk (O.fresh st.ctr)])).map TBlock.block_id)
      rw [pushChild_map_id, List.map_append]
      exact hFall
    · show ((pushChildToParent pid (mk (O.fresh st.ctr)).block_id
        (st.blocks ++ [mk (O.fresh st.ctr)])).map TBlock.block_id).Nodup
      rw [pushChild_map_id, List.map_append]
      exact hNall
    · show ChildrenLater (pushChildToParent pid (mk (O.fresh st.ctr)).block_id
        (st.blocks ++ [mk (O.fresh st.ctr)]))
      rw [hpush]
      exact childrenLater_push_append pid (mk (O.fresh st.ctr)).block_id
        (by simp) hCB hC

theorem handleImage_inv (O : TransformOracles)
    (hinj : Function.Injective O.fresh) (url : String) (alt : Option String)
    (parent : Option String) (st : TransformContext)
    (hInv : TransformInv O st) (hp : ParentOk O parent st.ctr) :
    TransformInv O (handleImage O url alt parent st) ∧
    st.ctr ≤ (handleImage O url alt parent st).ctr := by
  have h := addBlock_genId_inv O hinj createImageBlock parent st
    (fun _ => rfl) (fun _ => rfl) hInv hp
  exact ⟨h.1, h.2⟩

/-! The cell loop of handleTable: closed form and id accounting. -/

theorem cellIdsSeq_bound (O : TransformOracles) :
    ∀ (cells : List (List PhrasingContent)) (c : Nat) (id2 : String),
      id2 ∈ cellIdsSeq O cells c →
      ∃ k, c ≤ k ∧ k < c + 2 * cells.length ∧ id2 = O.fresh k
  | [], _, _, h => absurd h (by simp [cellIdsSeq])
  | _ :: cells, c, id2, h => by
    simp only [cellIdsSeq, List.mem_cons] at h
    rcases h with h | h | h
    · exact ⟨c, le_rfl, by simp only [List.length_cons]; omega, h⟩
    · exact ⟨c + 1, by omega, by simp only [List.length_cons]; omega, h⟩
    · obtain ⟨k, h1, h2, h3⟩ := cellIdsSeq_bound O cells (c + 2) id2 h
      exact ⟨k, by omega, by simp only [List.length_cons]; omega, h3⟩

theorem cellIdsSeq_nodup (O : TransformOracles)
    (hinj : Function.Injective O.fresh) :
    ∀ (cells : List (List PhrasingContent)) (c : Nat),
      (cellIdsSeq O cells c).Nodup
  | [], _ => by simp [cellIdsSeq]
  | _ :: cells, c => by
    simp only [cellIdsSeq, List.nodup_cons, List.mem_cons]
    refine ⟨?_, ?_, cellIdsSeq_nodup O hinj cells (c + 2)⟩
    · rintro (h | h)
      · exact absurd (hinj h) (by omega)
      · obtain ⟨k, h1, _, h3⟩ := cellIdsSeq_bound O cells (c + 2) _ h
        exact absurd (hinj h3) (by omega)
    · intro h
      obtain ⟨k, h1, _, h3⟩ := cellIdsSeq_bound O cells (c + 2) _ h
      exact absurd (hinj h3) (by omega)

theorem tableCellsGo_eq (O : TransformOracles) :
    ∀ (cells : List (List PhrasingContent)) (st : TransformContext),
      tableCellsGo O cells st =
        ((tableCellsSpec O cells st.ctr).1,
         (tableCellsSpec O cells st.ctr).2.1,
         (tableCellsSpec O cells st.ctr).2.2,
         { st with ctr := st.ctr + 2 * cells.length })
  | [], st => by
    show ([], [], [], st) = _
    simp [tableCellsSpec]
  | cell :: cells, st => by
    show ((genId O st).1 ::
        (tableCellsGo O cells (genId O (genId O st).2).2).1,
      { createTableCellBlock (genId O st).1 with
          children := [(genId O (genId O st).2).1] } ::
        (tableCellsGo O cells (genId O (genId O st).2).2).2.1,
      createTextBlock (extractTextElements O.enc cell emptyStyleContext)
          (genId O (genId O st).2).1 ::
        (tableCellsGo O cells (genId O (genId O st).2).2).2.2.1,
      (tableCellsGo O cells (genId O (genId O st).2).2).2.2.2) = _
    simp only [genId]
    rw [show st.ctr + 1 + 1 = st.ctr + 2 from by omega]
    have ih := tableCellsGo_eq O cells { st with ctr := st.ctr + 2 }
    rw [ih]
    simp [tableCellsSpec, List.length_cons, Prod.mk.injEq]
    omega

theorem tableCellsSpec_ids (O : TransformOracles) :
    ∀ (cells : List (List PhrasingContent)) (c : Nat),
      (tableCellsSpec O cells c).2.1.map TBlock.block_id =
        (tableCellsSpec O cells c).1
  | [], _ => rfl
  | cell :: cells, c => by
    simp only [tableCellsSpec, List.map_cons]
    rw [tableCellsSpec_ids O cells (c + 2)]
    rfl

theorem tableCellsSpec_perm (O : TransformOracles) :
    ∀ (cells : List (List PhrasingContent)) (c : Nat),
      ((tableCellsSpec O cells c).1 ++
        (tableCellsSpec O cells c).2.2.map TBlock.block_id).Perm
        (cellIdsSeq O cells c)
  | [], _ => by simp [tableCellsSpec, cellIdsSeq]
  | cell :: cells, c => by
    simp only [tableCellsSpec, cellIdsSeq, List.map_cons, List.cons_append]
    refine List.Perm.cons _ ?_
    exact List.perm_middle.trans
      (List.Perm.cons _ (tableCellsSpec_perm O cells (c + 2)))

theorem tableCellsSpec_pairs (O : TransformOracles) :
    ∀ (cells : List (List PhrasingContent)) (c : Nat),
      ∀ b ∈ (tableCellsSpec O cells c).2.1, ∀ cid ∈ b.children,
        cid ∈ (tableCellsSpec O cells c).2.2.map TBlock.block_id
  | [], _ => by
    intro b hb
    exact absurd hb (List.not_mem_nil _)
  | cell :: cells, c => by
    intro b hb cid hc
    simp only [tableCellsSpec, List.map_cons]
    rcases List.mem_cons.mp hb with h | h
    · subst h
      rw [List.mem_singleton.mp hc]
      exact List.mem_cons_self _ _
    · exact List.mem_cons_of_mem _
        (tableCellsSpec_pairs O cells (c + 2) b h cid hc)

theorem tableCellsSpec_empty (O : TransformOracles) :
    ∀ (cells : List (List PhrasingContent)) (c : Nat),
      ∀ b ∈ (tableCellsSpec O cells c).2.2, b.children = []
  | [], _ => by
    intro b hb
    exact absurd hb (List.not_mem_nil _)
  | cell :: cells, c => by
    intro b hb
    rcases List.mem_cons.mp hb with h | h
    · subst h
      rfl
    · exact tableCellsSpec_empty O cells (c + 2) b h

theorem handleTableChunk_inv (O : TransformOracles)
    (hinj : Function.Injective O.fresh) (parent : Option String)
    (colSize : Nat) (rows : List (List (List PhrasingContent)))
    (st : TransformContext) (hInv : TransformInv O st)
    (hp : ParentOk O parent st.ctr) :
    TransformInv O (handleTableChunk O parent colSize rows st) ∧
    st.ctr ≤ (handleTableChunk O parent colSize rows st).ctr := by
  obtain ⟨hF, hN, hC⟩ := hInv
  have hperm := tableCellsSpec_perm O rows.flatten st.ctr
  have hids := tableCellsSpec_ids O rows.flatten st.ctr
  have hpairsS := tableCellsSpec_pairs O rows.flatten st.ctr
  have hemptyS := tableCellsSpec_empty O rows.flatten st.ctr
  have hnodupNew : ((tableCellsSpec O rows.flatten st.ctr).1 ++
      (tableCellsSpec O rows.flatten st.ctr).2.2.map TBlock.block_id).Nodup :=
    hperm.nodup_iff.mpr (cellIdsSeq_nodup O hinj _ _)
  have hboundNew : ∀ id2 ∈ (tableCellsSpec O rows.flatten st.ctr).1 ++
      (tableCellsSpec O rows.flatten st.ctr).2.2.map TBlock.block_id,
      ∃ k, st.ctr ≤ k ∧ k < st.ctr + 2 * rows.flatten.length ∧
        id2 = O.fresh k := by
    intro id2 h2
    exact cellIdsSeq_bound O rows.flatten st.ctr id2 (hperm.mem_iff.mp h2)
  simp only [handleTableChunk, tableCellsGo_eq O rows.flatten st, genId]
  cases parent with
  | none =>
    simp only [addBlock, TransformInv]
    refine ⟨⟨?_, ?_, ?_⟩, ?_⟩
    · intro id2 hid2
      simp only [List.map_append, List.mem_append, List.map_cons, List.map_nil,
        List.mem_singleton, List.mem_cons, List.mem_nil_iff, or_false,
        createTableBlock, hids] at hid2
      rcases hid2 with ((h | h) | h) | h
      · obtain ⟨k, hk, e⟩ := hF id2 h
        exact ⟨k, by omega, e⟩
      · exact ⟨st.ctr + 2 * rows.flatten.length, by omega, h⟩
      · obtain ⟨k, h1, h2, e⟩ := hboundNew id2 (List.mem_append_left _ h)
        exact ⟨k, by omega, e⟩
      · obtain ⟨k, h1, h2, e⟩ := hboundNew id2 (List.mem_append_right _ h)
        exact ⟨k, by omega, e⟩
    · simp only [List.map_append, List.append_assoc, List.map_cons,
        List.map_nil, List.singleton_append, createTableBlock, hids]
      refine nodup_append_fresh O hinj st.ctr hF ?_ hN ?_
      · intro id2 h2
        rcases List.mem_cons.mp h2 with h | h
        · exact ⟨st.ctr + 2 * rows.flatten.length, by omega, h⟩
        · obtain ⟨k, h1, h2b, e⟩ := hboundNew id2 h
          exact ⟨k, h1, e⟩
      · refine List.nodup_cons.mpr ⟨?_, hnodupNew⟩
        intro hmem
        obtain ⟨k, h1, h2, e⟩ := hboundNew _ hmem
        exact absurd (hinj e) (by omega)
    · simp only [List.append_assoc, List.singleton_append]
      refine childrenLater_append hC ?_
      refine ⟨?_, childrenLater_pairs hpairsS (childrenLater_of_empty hemptyS)⟩
      intro cid hc
      simp only [createTableBlock] at hc
      rw [List.append_eq, List.map_append, hids]
      exact List.mem_append_left _ hc
    · show st.ctr ≤ st.ctr + 2 * rows.flatten.length + 1
      omega
  | some pid =>
    obtain ⟨k0, hk0, e0⟩ := hp pid rfl
    have hne2 : ((createTableBlock rows.length colSize
        (tableCellsSpec O rows.flatten st.ctr).1
        (O.fresh (st.ctr + 2 * rows.flatten.length))).block_id == pid) =
        false := by
      rw [beq_eq_false_iff_ne]
      show O.fresh (st.ctr + 2 * rows.flatten.length) ≠ pid
      rw [e0]
      intro h
      exact absurd (hinj h) (by omega)
    simp only [addBlock, TransformInv]
    rw [pushChild_append_last _ _ _ hne2]
    refine ⟨⟨?_, ?_, ?_⟩, ?_⟩
    · intro id2 hid2
      simp only [List.map_append, List.mem_append, List.map_cons, List.map_nil,
        List.mem_singleton, List.mem_cons, List.mem_nil_iff, or_false,
        createTableBlock, hids, pushChild_map_id] at hid2
      rcases hid2 with ((h | h) | h) | h
      · obtain ⟨k, hk, e⟩ := hF id2 h
        exact ⟨k, by omega, e⟩
      · exact ⟨st.ctr + 2 * rows.flatten.length, by omega, h⟩
      · obtain ⟨k, h1, h2, e⟩ := hboundNew id2 (List.mem_append_left _ h)
        exact ⟨k, by omega, e⟩
      · obtain ⟨k, h1, h2, e⟩ := hboundNew id2 (List.mem_append_right _ h)
        exact ⟨k, by omega, e⟩
    · simp only [List.map_append, List.append_assoc, List.map_cons,
        List.map_nil, List.singleton_append, createTableBlock, hids,
        pushChild_map_id]
      refine nodup_append_fresh O hinj st.ctr hF ?_ hN ?_
      · intro id2 h2
        rcases List.mem_cons.mp h2 with h | h
        · exact ⟨st.ctr + 2 * rows.flatten.length, by omega, h⟩
        · obtain ⟨k, h1, h2b, e⟩ := hboundNew id2 h
          exact ⟨k, h1, e⟩
      · refine List.nodup_cons.mpr ⟨?_, hnodupNew⟩
        intro hmem
        obtain ⟨k, h1, h2, e⟩ := hboundNew _ hmem
        exact absurd (hinj e) (by omega)
    · simp only [List.append_assoc, List.singleton_append]
      refine childrenLater_push_append _ _ ?_ ?_ hC
      · simp [createTableBlock]
      · refine ⟨?_, childrenLater_pairs hpairsS (childrenLater_of_empty hemptyS)⟩
        intro cid hc
        simp only [createTableBlock] at hc
        rw [List.append_eq, List.map_append, hids]
        exact List.mem_append_left _ hc
    · show st.ctr ≤ st.ctr + 2 * rows.flatten.length + 1
      omega

theorem handleTable_fold_inv (O : TransformOracles)
    (hinj : Function.Injective O.fresh) (parent : Option String)
    (colSize : Nat) :
    ∀ (chunks : List (List (List (List PhrasingContent))))
      (st : TransformContext), TransformInv O st → ParentOk O parent st.ctr →
      TransformInv O (chunks.foldl
        (fun st rows => handleTableChunk O parent colSize rows st) st) ∧
      st.ctr ≤ (chunks.foldl
        (fun st rows => handleTableChunk O parent colSize rows st) st).ctr
  | [], st, hInv, hp => ⟨hInv, le_rfl⟩
  | rows :: chunks, st, hInv, hp => by
    rw [List.foldl_cons]
    obtain ⟨h1, h2⟩ := handleTableChunk_inv O hinj parent colSize rows st hInv hp
    obtain ⟨h3, h4⟩ := handleTable_fold_inv O hinj parent colSize chunks _ h1
      (parentOk_mono h2 hp)
    exact ⟨h3, le_trans h2 h4⟩

theorem handleTable_inv (O : TransformOracles)
    (hinj : Function.Injective O.fresh) (parent : Option String)
    (allRows : List (List (List PhrasingContent))) (st : TransformContext)
    (hInv : TransformInv O st) (hp : ParentOk O parent st.ctr) :
    TransformInv O (handleTable O parent allRows st) ∧
    st.ctr ≤ (handleTable O parent allRows st).ctr := by
  cases allRows with
  | nil => exact ⟨hInv, le_rfl⟩
  | cons r0 rest =>
    by_cases h0 : r0.length = 0
    · simp only [handleTable]
      rw [if_pos h0]
      exact ⟨hInv, le_rfl⟩
    · simp only [handleTable]
      rw [if_neg h0]
      exact handleTable_fold_inv O hinj parent r0.length _ st hInv hp

theorem visitNode_paragraph_inv (O : TransformOracles)
    (hinj : Function.Injective O.fresh) (children : List PhrasingContent)
    (parent : Option String) (st : TransformContext)
    (hInv : TransformInv O st) (hp : ParentOk O parent st.ctr) :
    TransformInv O (visitNode O (.paragraph children) parent st) ∧
    st.ctr ≤ (visitNode O (.paragraph children) parent st).ctr := by
  have hdef : ∀ (cs : List PhrasingContent),
      TransformInv O (if (extractTextElements O.enc cs
          emptyStyleContext).isEmpty then st
        else addBlock (createTextBlock
          (extractTextElements O.enc cs emptyStyleContext) (genId O st).1)
          parent (genId O st).2) ∧
      st.ctr ≤ (if (extractTextElements O.enc cs
          emptyStyleContext).isEmpty then st
        else addBlock (createTextBlock
          (extractTextElements O.enc cs emptyStyleContext) (genId O st).1)
          parent (genId O st).2).ctr := by
    intro cs
    by_cases he : (extractTextElements O.enc cs emptyStyleContext).isEmpty
    · rw [if_pos he]
      exact ⟨hInv, le_rfl⟩
    · rw [if_neg he]
      exact addBlock_genId_inv O hinj
        (createTextBlock (extractTextElements O.enc cs emptyStyleContext))
        parent st (fun _ => rfl) (fun _ => rfl) hInv hp
  cases children with
  | nil => exact hdef []
  | cons c cs =>
    cases c with
    | image url alt =>
      cases cs with
      | nil => exact handleImage_inv O hinj url alt parent st hInv hp
      | cons c2 cs2 => exact hdef (.image url alt :: c2 :: cs2)
    | text v => exact hdef (.text v :: cs)
    | strong ch => exact hdef (.strong ch :: cs)
    | emphasis ch => exact hdef (.emphasis ch :: cs)
    | delete ch => exact hdef (.delete ch :: cs)
    | inlineCode v => exact hdef (.inlineCode v :: cs)
    | link url ch => exact hdef (.link url ch :: cs)
    | lineBreak => exact hdef (.lineBreak :: cs)
    | other ch => exact hdef (.other ch :: cs)

theorem parentOk_fresh_addBlock (O : TransformOracles) (blk : TBlock)
    (parent : Option String) (st : TransformContext) :
    ParentOk O (some (O.fresh st.ctr))
      (addBlock blk parent { st with ctr := st.ctr + 1 }).ctr := by
  intro pid hpid
  refine ⟨st.ctr, ?_, ?_⟩
  · rw [addBlock_ctr]
    exact Nat.lt_succ_self _
  · rw [← Option.some.inj hpid]

mutual

theorem visitNode_inv (O : TransformOracles)
    (hinj : Function.Injective O.fresh) :
    ∀ (n : MdNode) (parent : Option String) (st : TransformContext),
      TransformInv O st → ParentOk O parent st.ctr →
      TransformInv O (visitNode O n parent st) ∧
        st.ctr ≤ (visitNode O n parent st).ctr
  | .paragraph children, parent, st, hInv, hp =>
    visitNode_paragraph_inv O hinj children parent st hInv hp
  | .heading depth children, parent, st, hInv, hp =>
    addBlock_genId_inv O hinj
      (createHeadingBlock (min (max depth 1) 9)
        (extractTextElements O.enc children emptyStyleContext))
      parent st (fun _ => rfl) (fun _ => rfl) hInv hp
  | .list ordered items, parent, st, hInv, hp =>
    handleListItems_inv O hinj items parent (ordered.getD false) st hInv hp
  | .listItem item, parent, st, hInv, hp =>
    handleListItem_inv O hinj item parent false st hInv hp
  | .code lang value, parent, st, hInv, hp => by
    by_cases hm : (isMermaidLanguage lang && O.mermaidEnabled) = true
    · cases hr : O.render value with
      | some bf =>
        have h := addBlock_genId_inv O hinj createImageBlock parent st
          (fun _ => rfl) (fun _ => rfl) hInv hp
        simp only [visitNode]
        rw [if_pos hm, hr]
        exact ⟨h.1, h.2⟩
      | none =>
        have h := addBlock_genId_inv O hinj
          (createCodeBlock value (mapCodeLanguage (some "mermaid"))) parent st
          (fun _ => rfl) (fun _ => rfl) hInv hp
        simp only [visitNode]
        rw [if_pos hm, hr]
        exact h
    · have h := addBlock_genId_inv O hinj
        (createCodeBlock value (mapCodeLanguage lang)) parent st
        (fun _ => rfl) (fun _ => rfl) hInv hp
      simp only [visitNode]
      rw [if_neg hm]
      exact h
  | .blockquote children, parent, st, hInv, hp => by
    have h1 := addBlock_genId_inv O hinj createQuoteContainerBlock parent st
      (fun _ => rfl) (fun _ => rfl) hInv hp
    obtain ⟨h3, h4⟩ := visitNodes_inv O hinj children (some (genId O st).1) _
      h1.1 (parentOk_fresh_addBlock O _ parent st)
    exact ⟨h3, le_trans h1.2 h4⟩
  | .thematicBreak, parent, st, hInv, hp =>
    addBlock_genId_inv O hinj createDividerBlock parent st
      (fun _ => rfl) (fun _ => rfl) hInv hp
  | .table rows, parent, st, hInv, hp =>
    handleTable_inv O hinj parent rows st hInv hp
  | .image url alt, parent, st, hInv, hp =>
    handleImage_inv O hinj url alt parent st hInv hp
  | .html value, parent, st, hInv, hp =>
    addBlock_genId_inv O hinj (createTextBlock [createTextElement value none])
      parent st (fun _ => rfl) (fun _ => rfl) hInv hp
  | .unknown, parent, st, hInv, hp => ⟨hInv, le_rfl⟩

theorem visitNodes_inv (O : TransformOracles)
    (hinj : Function.Injective O.fresh) :
    ∀ (ns : List MdNode) (parent : Option String) (st : TransformContext),
      TransformInv O st → ParentOk O parent st.ctr →
      TransformInv O (visitNodes O ns parent st) ∧
        st.ctr ≤ (visitNodes O ns parent st).ctr
  | [], _, _, hInv, _ => ⟨hInv, le_rfl⟩
  | n :: ns, parent, st, hInv, hp => by
    obtain ⟨h1, h2⟩ := visitNode_inv O hinj n parent st hInv hp
    obtain ⟨h3, h4⟩ := visitNodes_inv O hinj ns parent _ h1
      (parentOk_mono h2 hp)
    exact ⟨h3, le_trans h2 h4⟩

theorem handleListItems_inv (O : TransformOracles)
    (hinj : Function.Injective O.fresh) :
    ∀ (its : List MdListItem) (parent : Option String) (ordered : Bool)
      (st : TransformContext),
      TransformInv O st → ParentOk O parent st.ctr →
      TransformInv O (handleListItems O its parent ordered st) ∧
        st.ctr ≤ (handleListItems O its parent ordered st).ctr
  | [], _, _, _, hInv, _ => ⟨hInv, le_rfl⟩
  | it :: its, parent, ordered, st, hInv, hp => by
    obtain ⟨h1, h2⟩ := handleListItem_inv O hinj it parent ordered st hInv hp
    obtain ⟨h3, h4⟩ := handleListItems_inv O hinj its parent ordered _ h1
      (parentOk_mono h2 hp)
    exact ⟨h3, le_trans h2 h4⟩

theorem handleListItem_inv (O : TransformOracles)
    (hinj : Function.Injective O.fresh) :
    ∀ (it : MdListItem) (parent : Option String) (ordered : Bool)
      (st : TransformContext),
      TransformInv O st → ParentOk O parent st.ctr →
      TransformInv O (handleListItem O it parent ordered st) ∧
        st.ctr ≤ (handleListItem O it parent ordered st).ctr
  | .mk (some done) children, parent, ordered, st, hInv, hp =>
    addBlock_genId_inv O hinj (createTodoBlock _ done) parent st
      (fun _ => rfl) (fun _ => rfl) hInv hp
  | .mk none children, parent, ordered, st, hInv, hp => by
    have h1 := addBlock_genId_inv O hinj
      (fun id => if ordered then
          createOrderedBlock (if (listItemText O children []).isEmpty then
            [createTextElement "" none] else listItemText O children []) id
        else
          createBulletBlock (if (listItemText O children []).isEmpty then
            [createTextElement "" none] else listItemText O children []) id)
      parent st (fun id => by cases ordered <;> rfl)
      (fun id => by cases ordered <;> rfl) hInv hp
    obtain ⟨h3, h4⟩ := visitListItemChildren_inv O hinj children
      (some (genId O st).1) [] _ h1.1 (parentOk_fresh_addBlock O _ parent st)
    exact ⟨h3, le_trans h1.2 h4⟩

theorem visitListItemChildren_inv (O : TransformOracles)
    (hinj : Function.Injective O.fresh) :
    ∀ (cs : List MdNode) (parent : Option String)
      (elements : List TextElement) (st : TransformContext),
      TransformInv O st → ParentOk O parent st.ctr →
      TransformInv O (visitListItemChildren O cs parent elements st) ∧
        st.ctr ≤ (visitListItemChildren O cs parent elements st).ctr
  | [], _, _, _, hInv, _ => ⟨hInv, le_rfl⟩
  | .paragraph ph :: rest, parent, elements, st, hInv, hp => by
    by_cases he : elements.isEmpty = true
    · simp only [visitListItemChildren]
      rw [if_pos he]
      exact visitListItemChildren_inv O hinj rest parent _ st hInv hp
    · simp only [visitListItemChildren]
      rw [if_neg he]
      obtain ⟨h1, h2⟩ := visitNode_inv O hinj (.paragraph ph) parent st hInv hp
      obtain ⟨h3, h4⟩ := visitListItemChildren_inv O hinj rest parent elements
        _ h1 (parentOk_mono h2 hp)
      exact ⟨h3, le_trans h2 h4⟩
  | .list o items :: rest, parent, elements, st, hInv, hp => by
    obtain ⟨h1, h2⟩ := visitNode_inv O hinj (.list o items) parent st hInv hp
    obtain ⟨h3, h4⟩ := visitListItemChildren_inv O hinj rest parent elements
      _ h1 (parentOk_mono h2 hp)
    exact ⟨h3, le_trans h2 h4⟩
  | .heading d ch :: rest, parent, elements, st, hInv, hp =>
    visitListItemChildren_inv O hinj rest parent elements st hInv hp
  | .listItem it :: rest, parent, elements, st, hInv, hp =>
    visitListItemChildren_inv O hinj rest parent elements st hInv hp
  | .code l v :: rest, parent, elements, st, hInv, hp =>
    visitListItemChildren_inv O hinj rest parent elements st hInv hp
  | .blockquote ch :: rest, parent, elements, st, hInv, hp =>
    visitListItemChildren_inv O hinj rest parent elements st hInv hp
  | .thematicBreak :: rest, parent, elements, st, hInv, hp =>
    visitListItemChildren_inv O hinj rest parent elements st hInv hp
  | .table r :: rest, parent, elements, st, hInv, hp =>
    visitListItemChildren_inv O hinj rest parent elements st hInv hp
  | .image u a :: rest, parent, elements, st, hInv, hp =>
    visitListItemChildren_inv O hinj rest parent elements st hInv hp
  | .html v :: rest, parent, elements, st, hInv, hp =>
    visitListItemChildren_inv O hinj rest parent elements st hInv hp
  | .unknown :: rest, parent, elements, st, hInv, hp =>
    visitListItemChildren_inv O hinj rest parent elements st hInv hp

end

theorem transformMarkdownToBlocks_inv (O : TransformOracles)
    (hinj : Function.Injective O.fresh) (ast : List MdNode) :
    TransformInv O (transformMarkdownToBlocks O ast) :=
  (visitNodes_inv O hinj ast none initialContext
    ⟨fun _ h2 => absurd h2 (List.not_mem_nil _), List.nodup_nil, trivial⟩
    (fun _ hpid => nomatch hpid)).1

/-- C10: for every markdown AST, in the blocks array returned by
transformMarkdownToBlocks - with the id generator (nanoid) modelled as an
injective oracle never returning the empty string - every block id is
non-empty, ids are unique within the array, every id in any block's
children list names a block present in the array exactly once, and that
child block sits at a strictly greater index than the block listing it:
parents always precede their descendants, the ordering splitBatch's
assignment of trailing blocks to the most recently started sub-batch
depends on. -/
theorem C10_transformer_invariants (O : TransformOracles) (ast : List MdNode)
    (hinj : Function.Injective O.fresh) (hne : ∀ n, O.fresh n ≠ "") :
    (∀ b ∈ (transformMarkdownToBlocks O ast).blocks, b.block_id ≠ "") ∧
    ((transformMarkdownToBlocks O ast).blocks.map TBlock.block_id).Nodup ∧
    (∀ b ∈ (transformMarkdownToBlocks O ast).blocks, ∀ cid ∈ b.children,
      List.count cid
        ((transformMarkdownToBlocks O ast).blocks.map TBlock.block_id) = 1) ∧
    (∀ (i : Nat) (hi : i < (transformMarkdownToBlocks O ast).blocks.length),
      ∀ cid ∈ ((transformMarkdownToBlocks O ast).blocks.get ⟨i, hi⟩).children,
      ∃ j, ∃ hj : j < (transformMarkdownToBlocks O ast).blocks.length,
        i < j ∧
        ((transformMarkdownToBlocks O ast).blocks.get ⟨j, hj⟩).block_id =
          cid) := by
  obtain ⟨hF, hN, hC⟩ := transformMarkdownToBlocks_inv O hinj ast
  refine ⟨?_, hN, ?_, ?_⟩
  · intro b hb
    obtain ⟨k, hk, e⟩ := hF b.block_id (List.mem_map_of_mem _ hb)
    rw [e]
    exact hne k
  · intro b hb cid hc
    exact List.count_eq_one_of_mem hN (childrenLater_mem hC hb hc)
  · intro i hi cid hc
    exact childrenLater_get _ hC i hi cid hc

/-- Witness for C10: the replicate-based id oracle is injective and never
empty, and the theorem applies to a two-node AST with a nested parent. -/
theorem C10_transformer_invariants_witness :
    Function.Injective demoFreshOracles.fresh ∧
    (∀ n, demoFreshOracles.fresh n ≠ "") ∧
    ((∀ b ∈ (transformMarkdownToBlocks demoFreshOracles demoAst).blocks,
        b.block_id ≠ "") ∧
     ((transformMarkdownToBlocks demoFreshOracles demoAst).blocks.map
        TBlock.block_id).Nodup ∧
     (∀ b ∈ (transformMarkdownToBlocks demoFreshOracles demoAst).blocks,
        ∀ cid ∈ b.children,
        List.count cid
          ((transformMarkdownToBlocks demoFreshOracles demoAst).blocks.map
            TBlock.block_id) = 1) ∧
     (∀ (i : Nat)
        (hi : i <
          (transformMarkdownToBlocks demoFreshOracles demoAst).blocks.length),
        ∀ cid ∈ ((transformMarkdownToBlocks demoFreshOracles
            demoAst).blocks.get ⟨i, hi⟩).children,
        ∃ j, ∃ hj : j <
            (transformMarkdownToBlocks demoFreshOracles
              demoAst).blocks.length,
          i < j ∧
          ((transformMarkdownToBlocks demoFreshOracles demoAst).blocks.get
            ⟨j, hj⟩).block_id = cid)) := by
  have hinj : Function.Injective demoFreshOracles.fresh := by
    intro a b h
    have h2 := congrArg (fun s => s.data.length) h
    simp [demoFreshOracles] at h2
    omega
  have hne : ∀ n, demoFreshOracles.fresh n ≠ "" := by
    intro n h
    have h2 := congrArg (fun s => s.data.length) h
    simp [demoFreshOracles] at h2
  exact ⟨hinj, hne,
    C10_transformer_invariants demoFreshOracles demoAst hinj hne⟩
